import Mathlib

/-!
Verification development for the timesheet synthesis engine of the tempo-mcp
repository.  The definitions below are a shallow embedding of the TypeScript
source (primarily `generateTimesheet`, the signal matchers, and the issue-key
extractor of the most evolved client revision); JavaScript numbers are
modelled as exact rationals, `Math.round` as the JS round-half-up, and the
collaborator network calls (Jira/Tempo/calendar) as pure oracle functions
bundled in an `Env` record.
-/

/-- JavaScript `Math.round`: round half toward positive infinity. -/
def jsRound (x : ℚ) : ℤ := ⌊x + 1/2⌋

/-- The source's `roundTo15Min` helper: `Math.round(h * 4) / 4`. -/
def roundQ4 (x : ℚ) : ℚ := (jsRound (x * 4) : ℚ) / 4

/-- A rational is a multiple of a quarter hour. -/
def mult4 (x : ℚ) : Prop := ∃ n : ℤ, x = (n : ℚ) / 4

/-- ASCII lower-casing of a character (model of JS `toLowerCase` on the
character ranges the source actually relies on). -/
def lowerChar (c : Char) : Char :=
  if 'A' ≤ c ∧ c ≤ 'Z' then Char.ofNat (c.toNat + 32) else c

/-- ASCII upper-casing of a character. -/
def upperChar (c : Char) : Char :=
  if 'a' ≤ c ∧ c ≤ 'z' then Char.ofNat (c.toNat - 32) else c

/-- ASCII `toLowerCase` on strings. -/
def lowerStr (s : String) : String := String.mk (s.data.map lowerChar)

/-- Does the first list occur as a leading segment of the second? -/
def startsWithSeq {α : Type} [DecidableEq α] : List α → List α → Bool
  | [], _ => true
  | _ :: _, [] => false
  | a :: as, b :: bs => decide (a = b) && startsWithSeq as bs

/-- Does `pat` occur as a contiguous segment of the second list?  This is
JS `String.prototype.includes` on the underlying character lists. -/
def containsSeq {α : Type} [DecidableEq α] (pat : List α) : List α → Bool
  | [] => pat.isEmpty
  | b :: rest => startsWithSeq pat (b :: rest) || containsSeq pat rest

/-- `hasSubstr hay needle` is JS `hay.includes(needle)`. -/
def hasSubstr (hay needle : String) : Bool := containsSeq needle.data hay.data

/-- JS `trim`: drop leading and trailing whitespace. -/
def trimStr (s : String) : String :=
  String.mk (((s.data.dropWhile Char.isWhitespace).reverse.dropWhile Char.isWhitespace).reverse)

/-- Fuelled splitting of a character list on maximal runs of separator
characters (the behaviour of JS `split` with a `[...]+` character-class
regex): edge separators produce empty tokens, which the keyword filter
discards.  The fuel `l.length` always suffices. -/
def splitRunGoF (p : Char → Bool) : Nat → List Char → List Char → List (List Char)
  | _, [], cur => [cur.reverse]
  | 0, _ :: _, cur => [cur.reverse]
  | fuel + 1, c :: cs, cur =>
    if p c then cur.reverse :: splitRunGoF p fuel (cs.dropWhile p) []
    else splitRunGoF p fuel cs (c :: cur)

/-- Splitting on maximal separator runs. -/
def splitRunGo (p : Char → Bool) (l : List Char) : List (List Char) :=
  splitRunGoF p l.length l []

/-- JS `split` with a single-character-class regex (no `+`): split at every
separator character, keeping empty segments. -/
def splitEvery (p : Char → Bool) : List Char → List (List Char)
  | [] => [[]]
  | c :: cs =>
    if p c then [] :: splitEvery p cs
    else
      match splitEvery p cs with
      | t :: ts => (c :: t) :: ts
      | [] => [[c]]

/-- Insertion into a JS `Set`, tracking the elements already seen: keep the
first occurrence of each element, drop later duplicates. -/
def dedupSeen {α : Type} [DecidableEq α] (seen : List α) : List α → List α
  | [] => []
  | a :: l => if seen.contains a then dedupSeen seen l else a :: dedupSeen (a :: seen) l

/-- Deduplication keeping the first occurrence of each element, the semantics
of JS `[...new Set(xs)]`. -/
def dedupFirstL {α : Type} [DecidableEq α] (l : List α) : List α := dedupSeen [] l

/-- Keep-first deduplication exactly as the spec words it: walk the list
left to right and append each element the first time it is seen, so the
output lists the distinct elements in order of first occurrence. Stated
independently of the source-derived `dedupFirstL` so the two can be proved
equal. -/
def firstOccurDedup {α : Type} [DecidableEq α] (l : List α) : List α :=
  l.foldl (fun acc x => if x ∈ acc then acc else acc ++ [x]) []

/-- Character class of the source's issue-key pattern: ASCII uppercase. -/
def isUpperC (c : Char) : Bool := decide ('A' ≤ c) && decide (c ≤ 'Z')

/-- ASCII digit. -/
def isDigitC (c : Char) : Bool := decide ('0' ≤ c) && decide (c ≤ '9')

/-- Uppercase letter or digit, i.e. the `[A-Z0-9]` class. -/
def isAlnumU (c : Char) : Bool := isUpperC c || isDigitC c

/-- One attempt of the regex `[A-Z][A-Z0-9]+-\d+` anchored at the head of the
list: on success, the matched token and the remaining characters. -/
def matchAt : List Char → Option (List Char × List Char)
  | [] => none
  | c :: cs =>
    if isUpperC c then
      let run := cs.takeWhile isAlnumU
      let rest1 := cs.dropWhile isAlnumU
      if run.isEmpty then none
      else
        match rest1 with
        | [] => none
        | d :: r2 =>
          if d = '-' then
            let ds := r2.takeWhile isDigitC
            if ds.isEmpty then none
            else some (c :: run ++ '-' :: ds, r2.dropWhile isDigitC)
          else none
    else none

/-- Fuelled version of the global regex scan: on a match the scan resumes at
the match's end, on a failure it advances one character. -/
def scanTokensF : Nat → List Char → List (List Char)
  | 0, _ => []
  | _ + 1, [] => []
  | fuel + 1, c :: cs =>
    match matchAt (c :: cs) with
    | some pr => pr.1 :: scanTokensF fuel pr.2
    | none => scanTokensF fuel cs

/-- The global scan of the issue-key regex over a character list: the list of
raw matches in order, as `message.match(/([A-Z][A-Z0-9]+-\d+)/g)` returns.
The fuel `l.length` always suffices, since every step consumes at least one
character. -/
def scanTokens (l : List Char) : List (List Char) := scanTokensF l.length l

/-- The source's issue-key extraction:
`[...new Set(message.match(/([A-Z][A-Z0-9]+-\d+)/g) || [])]`. -/
def extractIssueKeys (s : String) : List String :=
  (dedupFirstL (scanTokens s.data)).map String.mk

/-- A git commit as parsed by `getGitCommits` (hash/date/message plus the
extracted issue keys, the repository name and the lines-changed weight). -/
structure GitCommit where
  hash : String
  date : String
  message : String
  issueKeys : List String
  project : String
  linesChanged : ℚ
deriving DecidableEq

/-- Result of `getIssueDetails`: story points (null modelled as `none`) and
the issue summary. -/
structure IssueDetails where
  storyPoints : Option ℚ
  summary : String
deriving DecidableEq

/-- A calendar event as produced by `getCalendarEvents`. -/
structure CalendarEvent where
  date : String
  title : String
  durationMinutes : ℚ
  attendees : List String
  description : Option String
deriving DecidableEq

/-- An email as produced by `getEmails`. -/
structure EmailMessage where
  date : String
  subject : String
  sender : String
  toAddrs : List String
  snippet : String
  isSent : Bool
deriving DecidableEq

/-- Match confidence tier ("high" / "medium" / "low" in the source). -/
inductive Conf where
  | high
  | medium
  | low
deriving DecidableEq

/-- An email-to-issue match (the free-text `reason` field of the source is
presentation-only and omitted from the embedding). -/
structure EmailTaskMatch where
  email : EmailMessage
  issueKey : Option String
  confidence : Conf
deriving DecidableEq

/-- A calendar-event-to-issue match (again without the `reason` text). -/
structure CalendarTaskMatch where
  event : CalendarEvent
  issueKey : Option String
  confidence : Conf
deriving DecidableEq

/-- A Jira project (key and display name). -/
structure JiraProject where
  key : String
  name : String
deriving DecidableEq

/-- A sprint issue as returned by `getAllSprintIssues`. -/
structure SprintIssue where
  key : String
  summary : String
  project : String
deriving DecidableEq

/-- A timesheet entry. -/
structure TimesheetEntry where
  issueKey : String
  hours : ℚ
  description : String
  project : String
deriving DecidableEq

/-- A timesheet day. -/
structure TimesheetDay where
  date : String
  dayOfWeek : String
  entries : List TimesheetEntry
  totalHours : ℚ
deriving DecidableEq

/-- The in-progress pair (entries, running `totalHours`) of one day, before
the day record is emitted. -/
structure DayAcc where
  entries : List TimesheetEntry
  totalHours : ℚ
deriving DecidableEq

/-- One attempted `createWorklog` call (issue key, hours, date, description). -/
structure WorklogCall where
  issueKey : String
  hours : ℚ
  date : String
  description : String
deriving DecidableEq

/-- The oracle record for the collaborator calls `generateTimesheet` makes.
`createWorklog` returns `none` on success and `some reason` on failure;
`describeCommits` abstracts the pure text-munging helper
`generateDescription` (simplify/translate regex chains), and `debugLine`
abstracts the `[DEBUG] ...` diagnostic string pushed per day. -/
structure Env where
  issueDetails : String → IssueDetails
  calendarEventsFor : String → List CalendarEvent
  findSprintMeetingsIssue : String → Option String
  projects : List JiraProject
  createWorklog : String → ℚ → String → String → Option String
  describeCommits : List GitCommit → String
  debugLine : String → String

/-- JS `||` on an optional string with a default (empty string is falsy). -/
def orStr (o : Option String) (d : String) : String :=
  match o with
  | some s => if s = "" then d else s
  | none => d

/-- JS truthiness of a `string | null` issue key. -/
def keyTruthy (o : Option String) : Bool :=
  match o with
  | some k => !(k == "")
  | none => false

/-- `key.split("-")[0]`: the segment before the first hyphen. -/
def keyHead (k : String) : String :=
  String.mk (k.data.takeWhile (fun c => !(c == '-')))

/-- `details?.storyPoints || 1`: story points as a weight multiplier,
defaulting to 1 when absent or zero (JS falsiness). -/
def multiplierOf (sp : Option ℚ) : ℚ :=
  match sp with
  | none => 1
  | some v => if v = 0 then 1 else v

/-- Insert-or-append step of the `issueCommits` map construction:
`issueCommits.set(key, [...existing, commit])`, preserving insertion order
of keys as a JS `Map` does. -/
def upsertPush (m : List (String × List GitCommit)) (k : String) (c : GitCommit) :
    List (String × List GitCommit) :=
  if m.any (fun p => p.1 == k) then
    m.map (fun p => if p.1 == k then (p.1, p.2 ++ [c]) else p)
  else m ++ [(k, [c])]

/-- Fold of `upsertPush` over one commit's issue keys. -/
def upsertKeys (c : GitCommit) (m : List (String × List GitCommit)) :
    List String → List (String × List GitCommit)
  | [] => m
  | k :: ks => upsertKeys c (upsertPush m k c) ks

/-- The `issueCommits` map-building loop of `generateTimesheet` (a commit
with no issue keys is skipped; a commit touching several keys is pushed
under each of them). -/
def issueCommitsGo (m : List (String × List GitCommit)) :
    List GitCommit → List (String × List GitCommit)
  | [] => m
  | c :: rest =>
    issueCommitsGo (if c.issueKeys.isEmpty then m else upsertKeys c m c.issueKeys) rest

/-- The `issueCommits` grouping of a day's commits. -/
def issueCommitsOf (cs : List GitCommit) : List (String × List GitCommit) :=
  issueCommitsGo [] cs

/-- Insert-or-add step of the `projectLines` map construction. -/
def upsertAdd (m : List (String × ℚ)) (k : String) (v : ℚ) : List (String × ℚ) :=
  if m.any (fun p => p.1 == k) then
    m.map (fun p => if p.1 == k then (p.1, p.2 + v) else p)
  else m ++ [(k, v)]

/-- `commit.issueKeys[0]?.split("-")[0] || commit.project`. -/
def projKeyOf (c : GitCommit) : String :=
  let p := keyHead (c.issueKeys.headD "")
  if p = "" then c.project else p

/-- The `projectLines` map-building loop (commits without issue keys are
skipped by the `continue`). -/
def projLinesGo (m : List (String × ℚ)) : List GitCommit → List (String × ℚ)
  | [] => m
  | c :: rest =>
    projLinesGo (if c.issueKeys.isEmpty then m else upsertAdd m (projKeyOf c) c.linesChanged) rest

/-- The strictly-greater scan that picks the main project of the day. -/
def mainProjectOf (cs : List GitCommit) : String :=
  ((projLinesGo [] cs).foldl (fun acc pl => if pl.2 > acc.2 then pl else acc) ("", 0)).1

/-- Weight of one issue group: `issueLines * storyPointMultiplier`. -/
def groupWeight (env : Env) (g : String × List GitCommit) : ℚ :=
  ((g.2.map (fun c => c.linesChanged)).sum) * multiplierOf (env.issueDetails g.1).storyPoints

/-- The per-issue allocation loop of `generateTimesheet`: proportional share
of the available minutes by weight, rounded to 15-minute blocks with a
0.25 h floor. -/
def allocFromGroups (env : Env) (avail : ℚ) (groups : List (String × List GitCommit)) :
    List TimesheetEntry :=
  let totalWeight := (groups.map (groupWeight env)).sum
  groups.map (fun g =>
    { issueKey := g.1
      hours := max (1/4 : ℚ) (roundQ4 ((avail * (groupWeight env g / totalWeight)) / 60))
      description := env.describeCommits g.2
      project := keyHead g.1 })

/-- Sum of the hours of a list of entries. -/
def sumHours (l : List TimesheetEntry) : ℚ := (l.map (fun e => e.hours)).sum

/-- The allocation phase's day accumulator (entries plus the running total
built by the `totalHours += hours` statements). -/
def allocAcc (env : Env) (avail : ℚ) (groups : List (String × List GitCommit)) : DayAcc :=
  let es := allocFromGroups env avail groups
  { entries := es, totalHours := sumHours es }

/-- Keyword alternation of the sprint-meeting title regex
`/daily|standup|stand-up|sprint|planning|retro|review|refinement|grooming|sync|réunion|rencontre|bamboo|infusion|global/`. -/
def sprintMeetingKeywords : List String :=
  ["daily", "standup", "stand-up", "sprint", "planning", "retro", "review",
   "refinement", "grooming", "sync", "réunion", "rencontre", "bamboo", "infusion", "global"]

/-- Does a lower-cased title match the sprint-meeting regex? -/
def isSprintMeetingTitle (titleLower : String) : Bool :=
  sprintMeetingKeywords.any (fun k => hasSubstr titleLower k)

/-- First match of `/([A-Z]{2,})/`: the first maximal run of at least two
uppercase letters. -/
def upperRunScan : List Char → Option (List Char)
  | [] => none
  | c :: cs =>
    if isUpperC c then
      let run := c :: cs.takeWhile isUpperC
      if 2 ≤ run.length then some run else upperRunScan cs
    else upperRunScan cs

/-- First capture of `/@([^.]+)/`: the maximal dot-free run after the first
`@` that is followed by at least one non-dot character. -/
def domainAfterAt : List Char → Option (List Char)
  | [] => none
  | c :: rest =>
    if c = '@' then
      let run := rest.takeWhile (fun d => !(d == '.'))
      if run.isEmpty then domainAfterAt rest else some run
    else domainAfterAt rest

/-- The six-stage fuzzy company-to-project lookup `findProjectByCompany`. -/
def findProjectByCompany (projects : List JiraProject) (companyName : String) :
    Option JiraProject :=
  let searchName := lowerStr companyName
  let noSpaces := fun (s : String) => String.mk (s.data.filter (fun c => !c.isWhitespace))
  match projects.find? (fun p => lowerStr p.key == searchName) with
  | some p => some p
  | none =>
  match projects.find? (fun p => hasSubstr (lowerStr p.name) searchName) with
  | some p => some p
  | none =>
  match projects.find? (fun p =>
      hasSubstr (noSpaces (lowerStr p.name)) searchName ||
      hasSubstr searchName (noSpaces (lowerStr p.name))) with
  | some p => some p
  | none =>
  match projects.find? (fun p => hasSubstr searchName (lowerStr p.key)) with
  | some p => some p
  | none =>
  match projects.find? (fun p =>
      (splitRunGo (fun c => c.isWhitespace) (lowerStr p.name).data).any
        (fun w => 3 < w.length && hasSubstr searchName (String.mk w))) with
  | some p => some p
  | none =>
  projects.find? (fun p =>
      (splitRunGo (fun c => c.isWhitespace) (lowerStr p.name).data).any
        (fun w => startsWithSeq (searchName.data.take 3) w))

/-- The attendee loop that resolves a project from an attendee address. -/
def attendeeProject (projects : List JiraProject) : List String → Option JiraProject
  | [] => none
  | a :: rest =>
    match domainAfterAt a.data with
    | some run =>
      match findProjectByCompany projects (lowerStr (String.mk run)) with
      | some p => some p
      | none => attendeeProject projects rest
    | none => attendeeProject projects rest

/-- One application of `replace(/^(re|fwd|fw|tr):\s*/gi, "")`. -/
def stripReplyTag (s : String) : String :=
  let l := (lowerStr s).data
  if startsWithSeq "fwd:".data l then
    String.mk ((s.data.drop 4).dropWhile Char.isWhitespace)
  else if startsWithSeq "re:".data l then
    String.mk ((s.data.drop 3).dropWhile Char.isWhitespace)
  else if startsWithSeq "fw:".data l then
    String.mk ((s.data.drop 3).dropWhile Char.isWhitespace)
  else if startsWithSeq "tr:".data l then
    String.mk ((s.data.drop 3).dropWhile Char.isWhitespace)
  else s

/-- Upper-case the first character, as `charAt(0).toUpperCase() + slice(1)`. -/
def capitalizeFirst (s : String) : String :=
  match s.data with
  | [] => ""
  | c :: cs => String.mk (upperChar c :: cs)

/-- The source's `simplifyEmailSubject`: strip reply prefixes (twice), trim,
keep the part before the first dash/colon when one exists, capitalize,
truncate at 35 characters, with `"Suivi client"` as the empty fallback. -/
def simplifyEmailSubject (subject : String) : String :=
  let c1 := trimStr (stripReplyTag (stripReplyTag subject))
  let parts := (splitEvery (fun c => c == '-' || c == '–' || c == '—' || c == ':') c1.data).map String.mk
  let c2 := if 1 < parts.length then trimStr (parts.headD "") else c1
  let c3 := if 0 < c2.length then capitalizeFirst c2 else c2
  let c4 := if 35 < c3.length then String.mk (c3.data.take 32) ++ "..." else c3
  if c4 = "" then "Suivi client" else c4

/-- The if/else chain that picks the description of a calendar sprint
meeting from its lower-cased title. -/
def meetingDesc (titleLower title : String) : String :=
  if hasSubstr titleLower "daily" || hasSubstr titleLower "standup" then "Daily standup"
  else if hasSubstr titleLower "planning" then "Sprint planning"
  else if hasSubstr titleLower "retro" then "Rétrospective"
  else if hasSubstr titleLower "refinement" || hasSubstr titleLower "grooming" then "Raffinement"
  else if hasSubstr titleLower "infusion" then "Infusion"
  else if hasSubstr titleLower "bamboo" || hasSubstr titleLower "team" then "Team sync"
  else simplifyEmailSubject title

/-- First index whose element satisfies the predicate (the position of
`entries.find(...)` in the source's mutation steps). -/
def idxOfP {α : Type} (p : α → Bool) : List α → Option Nat
  | [] => none
  | a :: l => if p a then some 0 else (idxOfP p l).map (fun i => i + 1)

/-- Add hours (and optionally a description suffix) to the entry at an index,
the effect of mutating the entry object `entries.find(...)` returned. -/
def bumpAt (l : List TimesheetEntry) (i : Nat) (dh : ℚ) (dDesc : String) :
    List TimesheetEntry :=
  match l.get? i with
  | some e => l.set i { e with hours := e.hours + dh, description := e.description ++ dDesc }
  | none => l

/-- The project key a calendar sprint meeting resolves to: the first run of
two or more uppercase letters in the title, else the attendee-company
project, else `"BS"` or the day's main project by the title-keyword rule. -/
def sprintProjectKey (env : Env) (mainProject : String) (ev : CalendarEvent) : String :=
  let titleLower := lowerStr ev.title
  let pk0 := match upperRunScan ev.title.data with
             | some r => String.mk r
             | none => ""
  let pk1 := if pk0 = "" then
               match attendeeProject env.projects ev.attendees with
               | some p => p.key
               | none => ""
             else pk0
  if pk1 = "" then
    if hasSubstr titleLower "bamboo" || hasSubstr titleLower "infusion" ||
       hasSubstr titleLower "team" then "BS"
    else if mainProject = "" then "BS" else mainProject
  else pk1

/-- The issue a sprint meeting is logged against:
`sprintIssue || projectKey + "-1"`. -/
def sprintTargetIssue (env : Env) (mainProject : String) (ev : CalendarEvent) : String :=
  orStr (env.findSprintMeetingsIssue (sprintProjectKey env mainProject ev))
    (sprintProjectKey env mainProject ev ++ "-1")

/-- The calendar sprint-meeting merge loop of `generateTimesheet` (lines
"Add sprint/project meetings from calendar"). -/
def sprintGo (env : Env) (mainProject : String) (acc : DayAcc) :
    List CalendarEvent → DayAcc
  | [] => acc
  | ev :: rest =>
    let titleLower := lowerStr ev.title
    if !(isSprintMeetingTitle titleLower) then sprintGo env mainProject acc rest
    else
      let targetIssue := sprintTargetIssue env mainProject ev
      let desc := meetingDesc titleLower ev.title
      let dh := ev.durationMinutes / 60
      let acc' :=
        match idxOfP (fun e => e.issueKey == targetIssue) acc.entries with
        | some i => { entries := bumpAt acc.entries i dh ""
                      totalHours := acc.totalHours + dh }
        | none => { entries := acc.entries ++
                      [{ issueKey := targetIssue, hours := dh,
                         description := desc, project := sprintProjectKey env mainProject ev }]
                    totalHours := acc.totalHours + dh }
      sprintGo env mainProject acc' rest

/-- The email-task merge loop ("Add email-based tasks (0.25h each)"). -/
def addEmailGo (acc : DayAcc) (added : List String) : List EmailTaskMatch → DayAcc
  | [] => acc
  | t :: rest =>
    match t.issueKey with
    | some k =>
      if (!(k == "")) && (!(added.contains k)) then
        if acc.entries.any (fun e => e.issueKey == k) then addEmailGo acc added rest
        else
          addEmailGo
            { entries := acc.entries ++
                [{ issueKey := k, hours := 1/4,
                   description := "Suivi client - " ++ simplifyEmailSubject t.email.subject,
                   project := keyHead k }]
              totalHours := acc.totalHours + 1/4 }
            (added ++ [k]) rest
      else addEmailGo acc added rest
    | none => addEmailGo acc added rest

/-- The matched-calendar-task merge loop ("Add calendar meeting tasks"). -/
def addCalGo (acc : DayAcc) (added : List String) : List CalendarTaskMatch → DayAcc
  | [] => acc
  | t :: rest =>
    match t.issueKey with
    | some k =>
      if (!(k == "")) && (!(added.contains k)) then
        let dh := t.event.durationMinutes / 60
        let acc' :=
          match idxOfP (fun e => e.issueKey == k) acc.entries with
          | some i => { entries := bumpAt acc.entries i dh (" + Meeting: " ++ t.event.title)
                        totalHours := acc.totalHours + dh }
          | none => { entries := acc.entries ++
                        [{ issueKey := k, hours := dh,
                           description := "Meeting - " ++ t.event.title,
                           project := keyHead k }]
                      totalHours := acc.totalHours + dh }
        addCalGo acc' (added ++ [k]) rest
      else addCalGo acc added rest
    | none => addCalGo acc added rest

/-- `description.includes("Daily") || description.includes("Weekly sync")`:
the content-based tag the normalization step uses to exclude fixed
meetings from residual adjustment. -/
def isFixedMeeting (e : TimesheetEntry) : Bool :=
  hasSubstr e.description "Daily" || hasSubstr e.description "Weekly sync"

/-- The first scaling pass of the normalizer applied to every entry:
`entry.hours = Math.max(0.25, roundTo15Min(entry.hours * factor))` with
`factor = 8 / totalHours`. -/
def scaledEntries (d : DayAcc) : List TimesheetEntry :=
  d.entries.map (fun e =>
    { e with hours := max (1/4 : ℚ) (roundQ4 (e.hours * (8 / d.totalHours))) })

/-- The normalizer's residual: `roundTo15Min(8 - currentTotal)`. -/
def normDiff (d : DayAcc) : ℚ := roundQ4 (8 - sumHours (scaledEntries d))

/-- `adjustableEntries.reduce((a, b) => a.hours > b.hours ? a : b)`: the
first largest entry among those not flagged as fixed meetings. -/
def bestAdjustable (l : List TimesheetEntry) : Option TimesheetEntry :=
  match l.filter (fun e => !(isFixedMeeting e)) with
  | [] => none
  | x :: xs => some (xs.foldl (fun a b => if b.hours > a.hours then b else a) x)

/-- The normalization step of `generateTimesheet` ("Normalize to exactly 8
hours in 15-min blocks"): scale and round every entry, then, when the
residual is at least a quarter hour, add it to the first largest
non-meeting entry, and finally recompute `totalHours` as the literal sum. -/
def normalizeDay (d : DayAcc) : DayAcc :=
  if d.entries.isEmpty then d
  else
    let scaled := scaledEntries d
    let diff := normDiff d
    let final :=
      if 1/4 ≤ |diff| then
        match bestAdjustable scaled with
        | none => scaled
        | some best =>
          let idx := scaled.findIdx (fun e => (!(isFixedMeeting e)) && (decide (e.hours = best.hours)))
          scaled.set idx { best with hours := max (1/4 : ℚ) (roundQ4 (best.hours + diff)) }
      else scaled
    { entries := final, totalHours := sumHours final }

/-- The warning pushed for a day with no commits. -/
def noCommitsMsg (dow date : String) : String :=
  "No commits found for " ++ dow ++ " (" ++ date ++ ")"

/-- Available minutes of a day: 8 hours, minus 15 minutes on Monday. -/
def availMinutes (dow : String) : ℚ :=
  if dow = "Monday" then 8 * 60 - 15 else 8 * 60

/-- The day accumulator just before normalization: allocation from commit
groups, then calendar sprint meetings, then email tasks, then matched
calendar tasks. -/
def preNormAcc (env : Env) (date dow : String) (dayCommits : List GitCommit)
    (emailTasks : List EmailTaskMatch) (calTasks : List CalendarTaskMatch) : DayAcc :=
  let acc0 := allocAcc env (availMinutes dow) (issueCommitsOf dayCommits)
  let acc1 := sprintGo env (mainProjectOf dayCommits) acc0 (env.calendarEventsFor date)
  let acc2 := addEmailGo acc1 [] emailTasks
  addCalGo acc2 [] calTasks

/-- One iteration of the per-day loop of `generateTimesheet`, producing the
emitted `TimesheetDay` and the warning strings pushed while processing it
(the "no commits" warning and the `[DEBUG]` line). -/
def processDay (env : Env) (date dow : String) (dayCommits : List GitCommit)
    (emailTasks : List EmailTaskMatch) (calTasks : List CalendarTaskMatch) :
    TimesheetDay × List String :=
  let warns := (if dayCommits.isEmpty then [noCommitsMsg dow date] else []) ++
    [env.debugLine date]
  let norm := normalizeDay (preNormAcc env date dow dayCommits emailTasks calTasks)
  ({ date := date, dayOfWeek := dow, entries := norm.entries, totalHours := norm.totalHours },
   warns)

/-- Outcome of submitting one day's entries. -/
structure SubmitOut where
  created : Nat
  errs : List String
  calls : List WorklogCall
deriving DecidableEq

/-- The error string recorded when creating one worklog fails. -/
def worklogErrorMsg (k date reason : String) : String :=
  "Failed to create worklog for " ++ k ++ " on " ++ date ++ ": " ++ reason

/-- The worklog call an entry gives rise to. -/
def mkCall (e : TimesheetEntry) (date : String) : WorklogCall :=
  { issueKey := e.issueKey, hours := e.hours, date := date, description := e.description }

/-- The per-entry submission loop with its per-entry try/catch: every entry
is attempted; a failure only appends an error string. -/
def submitGo (env : Env) (date : String) : List TimesheetEntry → SubmitOut
  | [] => { created := 0, errs := [], calls := [] }
  | e :: rest =>
    let r := submitGo env date rest
    match env.createWorklog e.issueKey e.hours date e.description with
    | none => { created := r.created + 1, errs := r.errs, calls := mkCall e date :: r.calls }
    | some reason =>
      { created := r.created, errs := worklogErrorMsg e.issueKey date reason :: r.errs,
        calls := mkCall e date :: r.calls }

/-- The result record of `generateTimesheet`, extended with the trace of the
`createWorklog` calls that were attempted. -/
structure RunOut where
  days : List TimesheetDay
  worklogsCreated : Nat
  errors : List String
  calls : List WorklogCall
deriving DecidableEq

/-- The filter applied to matcher output before grouping by date:
`match.issueKey && match.confidence !== "low"` plus the date bucket. -/
def emailTasksFor (ms : List EmailTaskMatch) (date : String) : List EmailTaskMatch :=
  ms.filter (fun m => keyTruthy m.issueKey && (!(decide (m.confidence = Conf.low))) &&
    (m.email.date == date))

/-- Same filter for calendar-task matches. -/
def calTasksFor (ms : List CalendarTaskMatch) (date : String) : List CalendarTaskMatch :=
  ms.filter (fun m => keyTruthy m.issueKey && (!(decide (m.confidence = Conf.low))) &&
    (m.event.date == date))

/-- The main per-day loop of `generateTimesheet` over the work dates
(date, weekday) with the week's commits and matched signals, threading the
result record; submission runs only when `dryRun` is false. -/
def runDays (env : Env) (dryRun : Bool) (allCommits : List GitCommit)
    (emailMatches : List EmailTaskMatch) (calMatches : List CalendarTaskMatch) :
    List (String × String) → RunOut
  | [] => { days := [], worklogsCreated := 0, errors := [], calls := [] }
  | (date, dow) :: rest =>
    let dayCommits := allCommits.filter (fun c => c.date == date)
    let pd := processDay env date dow dayCommits
      (emailTasksFor emailMatches date) (calTasksFor calMatches date)
    let sub := if dryRun then ({ created := 0, errs := [], calls := [] } : SubmitOut)
               else submitGo env date pd.1.entries
    let r := runDays env dryRun allCommits emailMatches calMatches rest
    { days := pd.1 :: r.days
      worklogsCreated := sub.created + r.worklogsCreated
      errors := pd.2 ++ sub.errs ++ r.errors
      calls := sub.calls ++ r.calls }

/-- The parameters of `TempoClient.generateTimesheet` (optional fields are
the ones with destructuring defaults in the source). -/
structure GenerateTimesheetParams where
  weekStart : String
  gitAuthor : String
  projectsDir : String
  dryRun : Option Bool
  mondayMeetingIssue : Option String
deriving DecidableEq

/-- The destructuring default `dryRun = false` of
`TempoClient.generateTimesheet`. -/
def resolvedDryRun (p : GenerateTimesheetParams) : Bool := p.dryRun.getD false

/-- `generateTimesheet` from resolved inputs: the per-day loop with the
dry-run flag resolved by the client's own default. -/
def generateTimesheetRun (env : Env) (workDates : List (String × String))
    (allCommits : List GitCommit) (emailMatches : List EmailTaskMatch)
    (calMatches : List CalendarTaskMatch) (p : GenerateTimesheetParams) : RunOut :=
  runDays env (resolvedDryRun p) allCommits emailMatches calMatches workDates

/-- The raw arguments of the `tempo_generate_timesheet` MCP tool call. -/
structure ToolCallArgs where
  weekStart : String
  gitAuthor : Option String
  projectsDir : Option String
  dryRun : Option Bool
  mondayMeetingIssue : Option String
deriving DecidableEq

/-- The defaulting performed by the `tempo_generate_timesheet` handler in
`index.ts`: `dryRun: rawParams.dryRun ?? true` (dry run by default for
safety), `gitAuthor || JIRA_EMAIL`, etc. -/
def handlerParams (raw : ToolCallArgs) (jiraEmail defaultProjectsDir defaultMondayIssue : String) :
    GenerateTimesheetParams :=
  { weekStart := raw.weekStart
    gitAuthor := orStr raw.gitAuthor jiraEmail
    projectsDir := orStr raw.projectsDir defaultProjectsDir
    dryRun := some (raw.dryRun.getD true)
    mondayMeetingIssue := some (orStr raw.mondayMeetingIssue defaultMondayIssue) }

/-- Separator class of the keyword split regex
`/[\s:,\-\[\]\(\)\/\\'"!?.]+/`. -/
def kwSepChar (c : Char) : Bool :=
  c.isWhitespace ||
  [':', ',', '-', '[', ']', '(', ')', '/', '\\', '\'', '"', '!', '?', '.'].contains c

/-- The stop-word list of `extractKeywords`. -/
def stopWords : List String :=
  ["re", "fwd", "fw", "the", "and", "for", "from", "with", "about", "this", "that",
   "have", "has", "had", "been", "will", "would", "could", "should", "can", "may",
   "une", "des", "les", "pour", "dans", "sur", "avec", "est", "sont", "qui", "que",
   "vous", "nous", "votre", "notre", "merci", "bonjour", "salut", "cordialement"]

/-- Is the token all digits (`/^\d+$/`)? -/
def isNumericTok (w : String) : Bool := (!(w.data.isEmpty)) && w.data.all isDigitC

/-- The source's `extractKeywords`: lowercase, split on separators, keep
tokens longer than two characters that are neither stop words nor numeric. -/
def extractKeywords (text : String) : List String :=
  ((splitRunGo kwSepChar (lowerStr text).data).map String.mk).filter
    (fun w => (2 < w.length) && (!(stopWords.contains w)) && (!(isNumericTok w)))

/-- One pass of the similarity inner loop: 1 for an exact set member, else
0.5 when some member is a substring of the word or vice versa. -/
def simScore (set2 : List String) (acc : ℚ) (w : String) : ℚ :=
  if set2.contains w then acc + 1
  else if set2.any (fun w2 => hasSubstr w w2 || hasSubstr w2 w) then acc + 1/2
  else acc

/-- The source's `calculateSimilarity`: exact-overlap 1 / containment 0.5,
normalized by the smaller deduplicated set size. -/
def calculateSimilarity (keywords1 keywords2 : List String) : ℚ :=
  if keywords1.isEmpty || keywords2.isEmpty then 0
  else
    let set1 := dedupFirstL keywords1
    let set2 := dedupFirstL keywords2
    let total := set1.foldl (simScore set2) 0
    total / (min set1.length set2.length : ℚ)

/-- The project-affinity bonus added to candidates from the matched project. -/
def projectBonus (matchedProject : Option JiraProject) (issue : SprintIssue) : ℚ :=
  match matchedProject with
  | some mp => if issue.project = mp.key then 3/10 else 0
  | none => 0

/-- Total score of one candidate issue against the signal keywords. -/
def candScore (matchedProject : Option JiraProject) (kws : List String)
    (issue : SprintIssue) : ℚ :=
  calculateSimilarity kws (extractKeywords issue.summary) + projectBonus matchedProject issue

/-- The best-candidate fold shared verbatim by the email and calendar
matchers: keep the first candidate scoring strictly above 0.3 and strictly
above the current best. -/
def bestCandidate (matchedProject : Option JiraProject) (kws : List String) :
    List SprintIssue → Option (SprintIssue × ℚ) → Option (SprintIssue × ℚ)
  | [], best => best
  | issue :: rest, best =>
    let totalScore := candScore matchedProject kws issue
    let keep :=
      if totalScore > 3/10 ∧ (best = none ∨ ∀ b ∈ best, totalScore > b.2) then
        some (issue, totalScore)
      else best
    bestCandidate matchedProject kws rest keep

/-- First capture of `/<([^>]+)>/`: the maximal `>`-free run after a `<`
that is followed by a closing `>`. -/
def angleCapture : List Char → Option (List Char)
  | [] => none
  | c :: rest =>
    if c = '<' then
      let run := rest.takeWhile (fun d => !(d == '>'))
      if (!(run.isEmpty)) && run.length < rest.length then some run
      else angleCapture rest
    else angleCapture rest

/-- `extractCompanyFromEmail`: company token from the first recipient of a
sent email (`"Name <email>"` unwrapping, then the `@domain` capture). -/
def extractCompanyFromEmail (email : EmailMessage) : Option String :=
  if (!email.isSent) || email.toAddrs.isEmpty then none
  else
    let recipient := email.toAddrs.headD ""
    let emailAddr :=
      match angleCapture recipient.data with
      | some run => String.mk run
      | none => recipient
    match domainAfterAt emailAddr.data with
    | some run => some (lowerStr (String.mk run))
    | none => none

/-- The per-event body of `matchCalendarEventsToJiraIssues`: explicit key in
title (high) or description (medium), else keyword-similarity scoring
against the sprint-issue pool with an attendee-project bonus; an event
whose best score never clears 0.3 produces no match at all. -/
def matchOneCalendarEvent (projects : List JiraProject) (sprintIssues : List SprintIssue)
    (ev : CalendarEvent) : Option CalendarTaskMatch :=
  let titleKeys := scanTokens ev.title.data
  let descKeys := match ev.description with
                  | some d => scanTokens d.data
                  | none => []
  match titleKeys with
  | t :: _ => some { event := ev, issueKey := some (String.mk t), confidence := Conf.high }
  | [] =>
  match descKeys with
  | t :: _ => some { event := ev, issueKey := some (String.mk t), confidence := Conf.medium }
  | [] =>
    let matchedProject := attendeeProject projects ev.attendees
    let eventKeywords := extractKeywords (ev.title ++ " " ++ ev.description.getD "")
    if eventKeywords.isEmpty then none
    else
      match bestCandidate matchedProject eventKeywords sprintIssues none with
      | some (issue, score) =>
        some { event := ev, issueKey := some issue.key,
               confidence := if score > 1/2 then Conf.high else Conf.medium }
      | none => none

/-- `matchCalendarEventsToJiraIssues` over a list of events. -/
def matchCalendarEventsToJiraIssues (projects : List JiraProject)
    (sprintIssues : List SprintIssue) (events : List CalendarEvent) :
    List CalendarTaskMatch :=
  events.filterMap (matchOneCalendarEvent projects sprintIssues)

/-- The per-email body of `matchEmailsToJiraIssues` (the email was already
filtered to sent mail): explicit key in subject (high) or snippet
(medium), else the same scoring with a recipient-company project bonus. -/
def matchOneEmail (projects : List JiraProject) (sprintIssues : List SprintIssue)
    (email : EmailMessage) : Option EmailTaskMatch :=
  let subjectKeys := scanTokens email.subject.data
  let bodyKeys := scanTokens email.snippet.data
  match subjectKeys with
  | t :: _ => some { email := email, issueKey := some (String.mk t), confidence := Conf.high }
  | [] =>
  match bodyKeys with
  | t :: _ => some { email := email, issueKey := some (String.mk t), confidence := Conf.medium }
  | [] =>
    let matchedProject :=
      match extractCompanyFromEmail email with
      | some co => findProjectByCompany projects co
      | none => none
    let emailKeywords := extractKeywords (email.subject ++ " " ++ email.snippet)
    if emailKeywords.isEmpty then none
    else
      match bestCandidate matchedProject emailKeywords sprintIssues none with
      | some (issue, score) =>
        some { email := email, issueKey := some issue.key,
               confidence := if score > 1/2 then Conf.high else Conf.medium }
      | none => none

/-- `matchEmailsToJiraIssues`: only sent emails are processed. -/
def matchEmailsToJiraIssues (projects : List JiraProject)
    (sprintIssues : List SprintIssue) (emails : List EmailMessage) :
    List EmailTaskMatch :=
  (emails.filter (fun e => e.isSent)).filterMap (matchOneEmail projects sprintIssues)

/-- Concrete oracle for the C1 counterexample: three daily-standup calendar
events (15, 15 and 45 minutes) on three different projects, no commits. -/
def envC1 : Env :=
  { issueDetails := fun _ => { storyPoints := none, summary := "" }
    calendarEventsFor := fun _ =>
      [ { date := "2025-01-07", title := "Daily AA", durationMinutes := 15,
          attendees := [], description := none }
      , { date := "2025-01-07", title := "Daily BB", durationMinutes := 15,
          attendees := [], description := none }
      , { date := "2025-01-07", title := "Daily CC", durationMinutes := 45,
          attendees := [], description := none } ]
    findSprintMeetingsIssue := fun _ => none
    projects := []
    createWorklog := fun _ _ _ _ => none
    describeCommits := fun _ => "Dev"
    debugLine := fun _ => "dbg" }

/-- Concrete day for the C1 witness: the spec's own scenario entries
(6.5 h + 1.5 h) already summing to 8. -/
def dayW : DayAcc :=
  { entries := [ { issueKey := "ABC-1", hours := 13/2, description := "Dev", project := "ABC" }
               , { issueKey := "ABC-2", hours := 3/2, description := "Dev", project := "ABC" } ]
    totalHours := 8 }

/-- Concrete day for the C5 counterexample: a 15-minute daily standup next
to one hour of development work. -/
def dayC5 : DayAcc :=
  { entries := [ { issueKey := "BS-1", hours := 1/4, description := "Daily standup", project := "BS" }
               , { issueKey := "AB-7", hours := 1, description := "Dev", project := "AB" } ]
    totalHours := 5/4 }

/-- Concrete day for the C5 witness: a 2-hour meeting entry and 6 hours of
work already summing to 8, so scaling is the identity. -/
def dayM : DayAcc :=
  { entries := [ { issueKey := "BS-1", hours := 2, description := "Daily standup", project := "BS" }
               , { issueKey := "AB-1", hours := 6, description := "Dev", project := "AB" } ]
    totalHours := 8 }

/-- The meeting entry of `dayM`, as it appears in the scaled list. -/
def meetingEntryM : TimesheetEntry :=
  { issueKey := "BS-1", hours := 2, description := "Daily standup", project := "BS" }

/-- Oracle for the C8 witness: the sink fails for issue `XX-1` and succeeds
otherwise; no signals, one commit naming two issues. -/
def envFail : Env :=
  { issueDetails := fun _ => { storyPoints := none, summary := "" }
    calendarEventsFor := fun _ => []
    findSprintMeetingsIssue := fun _ => none
    projects := []
    createWorklog := fun k _ _ _ => if k = "XX-1" then some "boom" else none
    describeCommits := fun _ => "Dev"
    debugLine := fun _ => "dbg" }

/-- The single commit of the C8 witness week. -/
def commitFail : GitCommit :=
  { hash := "h", date := "2025-01-06", message := "m", issueKeys := ["XX-1", "YY-2"],
    project := "p", linesChanged := 10 }

/-- The entry whose worklog creation fails in the C8 witness run. -/
def entryFailX : TimesheetEntry :=
  { issueKey := "XX-1", hours := 4, description := "Dev", project := "XX" }

/-- The Monday the C8 witness run emits (both issues get 4 h). -/
def dayFail : TimesheetDay :=
  { date := "2025-01-06", dayOfWeek := "Monday"
    entries := [ entryFailX
               , { issueKey := "YY-2", hours := 4, description := "Dev", project := "YY" } ]
    totalHours := 8 }

/-- Raw tool arguments with no `dryRun` for the C10 witness. -/
def rawArgsW : ToolCallArgs :=
  { weekStart := "2025-01-06", gitAuthor := none, projectsDir := none,
    dryRun := none, mondayMeetingIssue := none }

/-- Direct client parameters with no `dryRun` for the C10 witness. -/
def clientParamsW : GenerateTimesheetParams :=
  { weekStart := "2025-01-06", gitAuthor := "a@b.c", projectsDir := "/p",
    dryRun := none, mondayMeetingIssue := none }

/-- Oracle for the C2 counterexample: zero commits, but one 60-minute daily
standup in the calendar for the day. -/
def envC2 : Env :=
  { issueDetails := fun _ => { storyPoints := none, summary := "" }
    calendarEventsFor := fun _ =>
      [ { date := "2025-01-07", title := "Daily AA", durationMinutes := 60,
          attendees := [], description := none } ]
    findSprintMeetingsIssue := fun _ => none
    projects := []
    createWorklog := fun _ _ _ _ => none
    describeCommits := fun _ => "Dev"
    debugLine := fun _ => "dbg" }

/-- The collector's duration rounding in `getCalendarEvents`:
`Math.max(15, Math.round(durationMinutes / 15) * 15)`. -/
def roundedDuration (m : ℚ) : ℚ := max 15 ((jsRound (m / 15) : ℚ) * 15)

/-- A duration in minutes is a positive multiple of 15, as the collector
produces. -/
def durOK (m : ℚ) : Prop := ∃ k : ℕ, 1 ≤ k ∧ m = 15 * k

/-- An entry's hours are a multiple of 0.25 and at least 0.25. -/
def entryOK (e : TimesheetEntry) : Prop := 1/4 ≤ e.hours ∧ mult4 e.hours

/-- Concatenation of the issue-key lists of a list of commits. -/
def allKeys : List GitCommit → List String
  | [] => []
  | c :: cs => c.issueKeys ++ allKeys cs

/-- Keys in order of first appearance across the day's commits. -/
def kordOf (cs : List GitCommit) : List String :=
  dedupFirstL (allKeys cs)

/-- The commits naming a given issue key, in order. -/
def commitsNaming (cs : List GitCommit) (k : String) : List GitCommit :=
  cs.filter (fun c => c.issueKeys.contains k)

/-- The weight of one issue as the spec formula states it: summed
lines-changed of the commits naming it times the story-point multiplier. -/
def weightFor (env : Env) (cs : List GitCommit) (k : String) : ℚ :=
  (((commitsNaming cs k).map (fun c => c.linesChanged)).sum) *
    multiplierOf (env.issueDetails k).storyPoints

/-- The total weight across the day's issues. -/
def totalWeightFor (env : Env) (cs : List GitCommit) : ℚ :=
  ((kordOf cs).map (weightFor env cs)).sum

/-- The two-commit day used to instantiate the allocation formula. -/
def csW : List GitCommit :=
  [{ hash := "a", date := "2025-01-06", message := "m1", issueKeys := ["AB-1"],
     project := "p", linesChanged := 40 },
   { hash := "b", date := "2025-01-06", message := "m2", issueKeys := ["AB-2"],
     project := "p", linesChanged := 10 }]

/-- The single Jira project of the C6 scenario. -/
def projsC6 : List JiraProject := [{ key := "AC", name := "Acme" }]

/-- The single sprint-issue candidate of the C6 scenario. -/
def poolC6 : List SprintIssue :=
  [{ key := "AC-9", summary := "alphax gamma", project := "AC" }]

/-- A calendar event with no explicit issue key whose attendee domain maps
to project AC. -/
def evC6 : CalendarEvent :=
  { date := "2025-01-06", title := "bamboo alpha beta", durationMinutes := 30,
    attendees := ["joe@ac.com"], description := none }

/-- The match record returned for the C6 event. -/
def mC6 : CalendarTaskMatch :=
  { event := evC6, issueKey := some "AC-9", confidence := Conf.high }

/-- A throwaway email for instantiating the email half of the C6 theorem. -/
def emailW : EmailMessage :=
  { date := "2025-01-06", subject := "s", sender := "a@b.c", toAddrs := [],
    snippet := "t", isSent := true }

/-- A character list whose head, if any, is not a digit (the condition under
which a digit run cannot leak across a token boundary). -/
def headNotDigit : List Char → Prop
  | [] => True
  | c :: _ => isDigitC c = false

/-- A well-formed issue-key token: it starts with an uppercase letter and
re-matches itself exactly when followed by any non-digit-headed suffix. -/
def wfTok (t : List Char) : Prop :=
  (∃ c t', t = c :: t' ∧ isUpperC c = true) ∧
  ∀ rest, headNotDigit rest → matchAt (t ++ rest) = some (t, rest)

theorem jsRound_intCast (n : ℤ) : jsRound (n : ℚ) = n := by
  unfold jsRound
  have h0 : (⌊(1 : ℚ)/2⌋ : ℤ) = 0 := by
    rw [Int.floor_eq_iff] <;> norm_num
  rw [add_comm, Int.floor_add_int, h0, zero_add]

theorem roundQ4_fix {x : ℚ} (h : mult4 x) : roundQ4 x = x := by
  obtain ⟨n, rfl⟩ := h
  unfold roundQ4
  have hx : (n : ℚ) / 4 * 4 = (n : ℚ) := by ring
  rw [hx, jsRound_intCast]

theorem roundQ4_mult4 (x : ℚ) : mult4 (roundQ4 x) := ⟨jsRound (x * 4), rfl⟩

theorem mult4_add {x y : ℚ} (hx : mult4 x) (hy : mult4 y) : mult4 (x + y) := by
  obtain ⟨n, rfl⟩ := hx
  obtain ⟨m, rfl⟩ := hy
  exact ⟨n + m, by push_cast; ring⟩

theorem mult4_max {x y : ℚ} (hx : mult4 x) (hy : mult4 y) : mult4 (max x y) := by
  rcases le_total x y with h | h
  · rw [max_eq_right h]; exact hy
  · rw [max_eq_left h]; exact hx

theorem mult4_quarter : mult4 (1/4 : ℚ) := ⟨1, by norm_num⟩

theorem mult4_sub {x y : ℚ} (hx : mult4 x) (hy : mult4 y) : mult4 (x - y) := by
  obtain ⟨n, rfl⟩ := hx
  obtain ⟨m, rfl⟩ := hy
  exact ⟨n - m, by push_cast; ring⟩

theorem mult4_eq_zero_of_abs_lt {x : ℚ} (hx : mult4 x) (h : |x| < 1/4) : x = 0 := by
  obtain ⟨n, rfl⟩ := hx
  have h4 : |(n : ℚ)| < 1 := by
    rw [abs_div] at h
    have : |(4 : ℚ)| = 4 := by norm_num
    rw [this, div_lt_iff (by norm_num : (0:ℚ) < 4)] at h
    linarith
  have hn : n = 0 := by
    have := abs_lt.mp h4
    have h1 : (-1 : ℚ) < (n : ℚ) := this.1
    have h2 : (n : ℚ) < 1 := this.2
    have h1' : (-1 : ℤ) < n := by exact_mod_cast h1
    have h2' : n < 1 := by exact_mod_cast h2
    omega
  rw [hn]; norm_num

theorem dropWhile_length_le {α : Type} (p : α → Bool) (l : List α) :
    (l.dropWhile p).length ≤ l.length := by
  induction l with
  | nil => simp
  | cons a l ih =>
    by_cases h : p a
    · rw [List.dropWhile_cons, if_pos h]
      simp only [List.length_cons]
      omega
    · rw [List.dropWhile_cons, if_neg h]

theorem matchAt_rest_lt {l : List Char} {pr : List Char × List Char}
    (h : matchAt l = some pr) : pr.2.length < l.length := by
  match l with
  | [] => simp [matchAt] at h
  | c :: cs =>
    simp only [matchAt] at h
    by_cases hc : isUpperC c = true
    · rw [if_pos hc] at h
      by_cases hr : (cs.takeWhile isAlnumU).isEmpty = true
      · rw [if_pos hr] at h; exact absurd h (by simp)
      · rw [if_neg hr] at h
        match hrest : cs.dropWhile isAlnumU with
        | [] => rw [hrest] at h; exact absurd h (by simp)
        | d :: r2 =>
          rw [hrest] at h
          dsimp only at h
          by_cases hd : d = '-'
          · rw [if_pos hd] at h
            by_cases hds : (r2.takeWhile isDigitC).isEmpty = true
            · rw [if_pos hds] at h; exact absurd h (by simp)
            · rw [if_neg hds] at h
              cases Option.some.inj h
              have h1 : (r2.dropWhile isDigitC).length ≤ r2.length :=
                dropWhile_length_le _ _
              have h2 : (d :: r2).length ≤ cs.length := by
                rw [← hrest]; exact dropWhile_length_le _ _
              simp only [List.length_cons] at h2
              simp only [List.length_cons]
              omega
          · rw [if_neg hd] at h; exact absurd h (by simp)
    · rw [if_neg hc] at h; exact absurd h (by simp)

theorem scanTokensF_eq_scan (fuel : Nat) :
    ∀ l : List Char, l.length ≤ fuel → scanTokensF fuel l = scanTokens l := by
  induction fuel using Nat.strong_induction_on with
  | _ fuel ih =>
    intro l hl
    match fuel, l with
    | 0, [] => rfl
    | 0, c :: cs => simp at hl
    | n + 1, [] => rfl
    | n + 1, c :: cs =>
      simp only [List.length_cons] at hl
      unfold scanTokens
      simp only [List.length_cons, scanTokensF]
      match hm : matchAt (c :: cs) with
      | some pr =>
        have hlt := matchAt_rest_lt hm
        simp only [List.length_cons] at hlt
        have e1 : scanTokensF n pr.2 = scanTokens pr.2 :=
          ih n (by omega) pr.2 (by omega)
        have e2 : scanTokensF cs.length pr.2 = scanTokens pr.2 :=
          ih cs.length (by omega) pr.2 (by omega)
        dsimp only
        rw [e1, e2]
      | none =>
        have e1 : scanTokensF n cs = scanTokens cs :=
          ih n (by omega) cs (by omega)
        have e2 : scanTokensF cs.length cs = scanTokens cs :=
          ih cs.length (by omega) cs (le_refl _)
        dsimp only
        rw [e1, e2]

theorem sumHours_cons (e : TimesheetEntry) (l : List TimesheetEntry) :
    sumHours (e :: l) = e.hours + sumHours l := by
  simp [sumHours]

theorem sumHours_set (l : List TimesheetEntry) (i : Nat) (x : TimesheetEntry)
    (h : i < l.length) :
    sumHours (l.set i x) = sumHours l - (l.get ⟨i, h⟩).hours + x.hours := by
  induction l generalizing i with
  | nil => simp at h
  | cons e t ih =>
    cases i with
    | zero =>
      simp only [List.set_cons_zero, sumHours_cons, List.get]
      ring
    | succ j =>
      simp only [List.set_cons_succ, sumHours_cons, List.get]
      have hj : j < t.length := by simpa using h
      rw [ih j hj]
      ring

theorem scaledEntries_hours (d : DayAcc) :
    ∀ e ∈ scaledEntries d, 1/4 ≤ e.hours ∧ mult4 e.hours := by
  intro e he
  simp only [scaledEntries, List.mem_map] at he
  obtain ⟨a, _, rfl⟩ := he
  constructor
  · exact le_max_left _ _
  · exact mult4_max mult4_quarter (roundQ4_mult4 _)

theorem sumHours_mult4 (l : List TimesheetEntry) (h : ∀ e ∈ l, mult4 e.hours) :
    mult4 (sumHours l) := by
  induction l with
  | nil => exact ⟨0, by simp [sumHours]⟩
  | cons e t ih =>
    rw [sumHours_cons]
    exact mult4_add (h e (List.mem_cons_self _ _)) (ih (fun x hx => h x (List.mem_cons_of_mem _ hx)))

theorem foldl_pick_mem (x : TimesheetEntry) (xs : List TimesheetEntry) :
    xs.foldl (fun a b => if b.hours > a.hours then b else a) x ∈ x :: xs := by
  induction xs generalizing x with
  | nil => simp
  | cons y ys ih =>
    simp only [List.foldl_cons]
    have := ih (if y.hours > x.hours then y else x)
    rcases List.mem_cons.mp this with h | h
    · rw [h]
      by_cases hc : y.hours > x.hours
      · simp [hc]
      · simp [hc]
    · simp [h]

theorem bestAdjustable_spec {l : List TimesheetEntry} {b : TimesheetEntry}
    (h : bestAdjustable l = some b) : b ∈ l ∧ isFixedMeeting b = false := by
  unfold bestAdjustable at h
  match hf : l.filter (fun e => !(isFixedMeeting e)) with
  | [] => rw [hf] at h; exact absurd h (by simp)
  | x :: xs =>
    rw [hf] at h
    have hb : b = xs.foldl (fun a b => if b.hours > a.hours then b else a) x :=
      (Option.some.inj h).symm
    have hmem : b ∈ x :: xs := hb ▸ foldl_pick_mem x xs
    have hmem' : b ∈ l.filter (fun e => !(isFixedMeeting e)) := hf ▸ hmem
    have := List.mem_filter.mp hmem'
    exact ⟨this.1, by simpa using this.2⟩

/-- The normalizer's residual is `8 - currentTotal` exactly (both are
multiples of a quarter). -/
theorem normDiff_eq (d : DayAcc) : normDiff d = 8 - sumHours (scaledEntries d) := by
  unfold normDiff
  apply roundQ4_fix
  apply mult4_sub ⟨32, by norm_num⟩
  exact sumHours_mult4 _ (fun e he => (scaledEntries_hours d e he).2)

/-- Claim C1 (amended): after normalization, `totalHours` is always the
literal sum of the entries' hours; and it equals exactly 8 whenever the
scaled entry list has a largest non-meeting entry whose hours plus the
residual stay at or above the 0.25 floor (the source's clamp).  Without such
an adjustable entry, or when the clamp bites, the residual is dropped and
the total can differ from 8. -/
theorem c1_normalization_total_amended (d : DayAcc) (hne : d.entries ≠ []) :
    (normalizeDay d).totalHours = sumHours (normalizeDay d).entries ∧
    (∀ best, bestAdjustable (scaledEntries d) = some best →
      1/4 ≤ best.hours + normDiff d →
      (normalizeDay d).totalHours = 8) := by
  have hempty : d.entries.isEmpty = false := by
    cases hd : d.entries with
    | nil => exact absurd hd hne
    | cons a l => rfl
  constructor
  · unfold normalizeDay
    rw [hempty]
    simp
  · intro best hb hge
    unfold normalizeDay
    rw [hempty]
    simp only [Bool.false_eq_true, if_false, hb]
    have hSmult : mult4 (sumHours (scaledEntries d)) :=
      sumHours_mult4 _ (fun e he => (scaledEntries_hours d e he).2)
    have hdiff : normDiff d = 8 - sumHours (scaledEntries d) := normDiff_eq d
    by_cases hcond : 1/4 ≤ |normDiff d|
    · simp only [hcond, if_true]
      have hbs := bestAdjustable_spec hb
      have hpredb : (fun e => (!(isFixedMeeting e)) && (decide (e.hours = best.hours))) best = true := by
        simp [hbs.2]
      have hex : ∃ x ∈ scaledEntries d,
          (fun e => (!(isFixedMeeting e)) && (decide (e.hours = best.hours))) x = true :=
        ⟨best, hbs.1, hpredb⟩
      have hidx : (scaledEntries d).findIdx
          (fun e => (!(isFixedMeeting e)) && (decide (e.hours = best.hours))) <
          (scaledEntries d).length := List.findIdx_lt_length_of_exists hex
      have hpi := @List.findIdx_getElem _
        (fun e => (!(isFixedMeeting e)) && (decide (e.hours = best.hours)))
        (scaledEntries d) hidx
      have hhours_idx :
          ((scaledEntries d).get ⟨(scaledEntries d).findIdx
            (fun e => (!(isFixedMeeting e)) && (decide (e.hours = best.hours))), hidx⟩).hours
          = best.hours := by
        have := (Bool.and_eq_true _ _).mp hpi
        have h2 := this.2
        simpa [List.get_eq_getElem] using of_decide_eq_true h2
      have hbest4 : mult4 best.hours := (scaledEntries_hours d best hbs.1).2
      have hdiff4 : mult4 (normDiff d) := roundQ4_mult4 _
      have hnew : max (1/4 : ℚ) (roundQ4 (best.hours + normDiff d)) = best.hours + normDiff d := by
        rw [roundQ4_fix (mult4_add hbest4 hdiff4)]
        exact max_eq_right hge
      rw [sumHours_set _ _ _ hidx]
      rw [hhours_idx]
      dsimp only
      rw [hnew, hdiff]
      ring
    · simp only [hcond, if_false]
      have h0 : normDiff d = 0 := by
        apply mult4_eq_zero_of_abs_lt (roundQ4_mult4 _)
        push_neg at hcond
        exact hcond
      rw [hdiff] at h0
      linarith

/-- Claim C1, counterexample: a day whose entries are all daily-standup
meetings (so no entry is adjustable) ends normalization with three entries
and `totalHours = 7.75 ≠ 8`: the residual cannot be applied. -/
theorem c1_counterexample :
    (processDay envC1 "2025-01-07" "Tuesday" [] [] []).1.entries.length = 3 ∧
    (processDay envC1 "2025-01-07" "Tuesday" [] [] []).1.totalHours = 31/4 ∧
    ((31 : ℚ)/4 ≠ 8) := by
  refine ⟨?_, ?_, by norm_num⟩ <;>
    norm_num +decide [processDay, preNormAcc, allocAcc, allocFromGroups, issueCommitsOf,
      issueCommitsGo, mainProjectOf, projLinesGo, sprintGo, addEmailGo, addCalGo, envC1,
      availMinutes, orStr, meetingDesc, idxOfP, bumpAt, normalizeDay, scaledEntries,
      normDiff, sumHours, bestAdjustable, isFixedMeeting, roundQ4, jsRound]

theorem c1_witness :
    (normalizeDay dayW).totalHours = 8 := by
  have hne : dayW.entries ≠ [] := by decide
  have hb : bestAdjustable (scaledEntries dayW) =
      some { issueKey := "ABC-1", hours := 13/2, description := "Dev", project := "ABC" } := by
    norm_num +decide [bestAdjustable, scaledEntries, dayW, isFixedMeeting, roundQ4, jsRound]
  have hge : (1:ℚ)/4 ≤ (13:ℚ)/2 + normDiff dayW := by
    norm_num [normDiff, scaledEntries, dayW, sumHours, roundQ4, jsRound]
  exact (c1_normalization_total_amended dayW hne).2 _ hb hge

/-- Claim C5 (amended): the residual-adjustment step never modifies an entry
flagged as a fixed meeting — every meeting-flagged entry of the scaled list
keeps its post-scaling hours in the final normalized list.  (The initial
scaling pass, however, does rescale meeting entries like all others.) -/
theorem c5_residual_skips_meetings_amended (d : DayAcc) (i : Nat) (e : TimesheetEntry)
    (he : (scaledEntries d).get? i = some e) (hm : isFixedMeeting e = true) :
    ((normalizeDay d).entries.get? i).map (fun x => x.hours) = some e.hours := by
  have hempty : d.entries.isEmpty = false := by
    cases hd : d.entries with
    | nil =>
      have hscaled : scaledEntries d = [] := by simp [scaledEntries, hd]
      rw [hscaled] at he
      exact absurd he (by simp)
    | cons a l => rfl
  unfold normalizeDay
  rw [hempty]
  simp only [Bool.false_eq_true, if_false]
  by_cases hcond : 1/4 ≤ |normDiff d|
  · simp only [hcond, if_true]
    cases hba : bestAdjustable (scaledEntries d) with
    | none =>
      dsimp only
      rw [he]
      rfl
    | some best =>
      have hbs := bestAdjustable_spec hba
      have hpredb : (fun x => (!(isFixedMeeting x)) && (decide (x.hours = best.hours))) best = true := by
        simp [hbs.2]
      have hex : ∃ x ∈ scaledEntries d,
          (fun x => (!(isFixedMeeting x)) && (decide (x.hours = best.hours))) x = true :=
        ⟨best, hbs.1, hpredb⟩
      have hidx : (scaledEntries d).findIdx
          (fun x => (!(isFixedMeeting x)) && (decide (x.hours = best.hours))) <
          (scaledEntries d).length := List.findIdx_lt_length_of_exists hex
      have hpi := @List.findIdx_getElem _
        (fun x => (!(isFixedMeeting x)) && (decide (x.hours = best.hours)))
        (scaledEntries d) hidx
      have hnotm : isFixedMeeting ((scaledEntries d).get
          ⟨(scaledEntries d).findIdx
            (fun x => (!(isFixedMeeting x)) && (decide (x.hours = best.hours))), hidx⟩) = false := by
        have h1 := ((Bool.and_eq_true _ _).mp hpi).1
        simpa [List.get_eq_getElem] using h1
      have hilen : i < (scaledEntries d).length := by
        by_contra hcon
        push_neg at hcon
        rw [List.get?_eq_none.mpr hcon] at he
        exact absurd he (by simp)
      have hie : (scaledEntries d).get ⟨i, hilen⟩ = e := by
        rw [List.get?_eq_get hilen] at he
        exact Option.some.inj he
      have hne_idx : (scaledEntries d).findIdx
          (fun x => (!(isFixedMeeting x)) && (decide (x.hours = best.hours))) ≠ i := by
        intro hcontra
        subst hcontra
        have hfm : isFixedMeeting e = false := by
          rw [← hie]
          exact hnotm
        rw [hm] at hfm
        exact absurd hfm (by simp)
      dsimp only
      have hlen2 : i < ((scaledEntries d).set
          ((scaledEntries d).findIdx
            (fun x => (!(isFixedMeeting x)) && (decide (x.hours = best.hours))))
          { best with hours := max (1/4 : ℚ) (roundQ4 (best.hours + normDiff d)) }).length := by
        rw [List.length_set]
        exact hilen
      rw [List.get?_eq_get hlen2]
      simp only [List.get_eq_getElem]
      rw [List.getElem_set_ne hne_idx]
      have hie2 : (scaledEntries d)[i] = e := by
        have hg := List.get_eq_getElem (scaledEntries d) ⟨i, hilen⟩
        rw [← hg]
        exact hie
      rw [hie2]
      rfl
  · simp only [hcond, if_false]
    rw [he]
    rfl

/-- Claim C5, counterexample: the meeting entry enters normalization with
0.25 h and leaves it with 1.5 h — the scaling pass does change the duration
of an entry flagged as a fixed recurring meeting. -/
theorem c5_counterexample :
    (dayC5.entries.get? 0).map (fun e => e.hours) = some (1/4) ∧
    (dayC5.entries.get? 0).map isFixedMeeting = some true ∧
    ((normalizeDay dayC5).entries.get? 0).map (fun e => e.hours) = some (3/2) ∧
    ((3 : ℚ)/2 ≠ 1/4) := by
  refine ⟨by norm_num [dayC5], by decide, ?_, by norm_num⟩
  norm_num +decide [normalizeDay, dayC5, scaledEntries, normDiff, sumHours, bestAdjustable,
    isFixedMeeting, roundQ4, jsRound]

theorem c5_witness :
    ((normalizeDay dayM).entries.get? 0).map (fun x => x.hours) = some meetingEntryM.hours := by
  apply c5_residual_skips_meetings_amended dayM 0
  · norm_num +decide [scaledEntries, dayM, meetingEntryM, roundQ4, jsRound]
  · decide

theorem submitGo_calls (env : Env) (date : String) (es : List TimesheetEntry) :
    (submitGo env date es).calls = es.map (fun e => mkCall e date) := by
  induction es with
  | nil => rfl
  | cons e rest ih =>
    simp only [submitGo]
    cases env.createWorklog e.issueKey e.hours date e.description with
    | none => simp [ih]
    | some reason => simp [ih]

theorem submitGo_errs_mem (env : Env) (date : String) (es : List TimesheetEntry)
    (e : TimesheetEntry) (reason : String) (he : e ∈ es)
    (hf : env.createWorklog e.issueKey e.hours date e.description = some reason) :
    worklogErrorMsg e.issueKey date reason ∈ (submitGo env date es).errs := by
  induction es with
  | nil => simp at he
  | cons x rest ih =>
    simp only [submitGo]
    rcases List.mem_cons.mp he with rfl | hmem
    · rw [hf]
      exact List.mem_cons_self _ _
    · cases hx : env.createWorklog x.issueKey x.hours date x.description with
      | none => exact ih hmem
      | some r => exact List.mem_cons_of_mem _ (ih hmem)

theorem runDays_days_indep (env : Env) (dry₁ dry₂ : Bool) (cs : List GitCommit)
    (em : List EmailTaskMatch) (cm : List CalendarTaskMatch) (wd : List (String × String)) :
    (runDays env dry₁ cs em cm wd).days = (runDays env dry₂ cs em cm wd).days := by
  induction wd with
  | nil => rfl
  | cons hd rest ih =>
    obtain ⟨date, dow⟩ := hd
    simp only [runDays]
    rw [ih]

theorem runDays_dry_no_calls (env : Env) (cs : List GitCommit)
    (em : List EmailTaskMatch) (cm : List CalendarTaskMatch) (wd : List (String × String)) :
    (runDays env true cs em cm wd).calls = [] ∧
    (runDays env true cs em cm wd).worklogsCreated = 0 := by
  induction wd with
  | nil => exact ⟨rfl, rfl⟩
  | cons hd rest ih =>
    obtain ⟨date, dow⟩ := hd
    simp only [runDays, if_true]
    exact ⟨by simp [ih.1], by simp [ih.2]⟩

theorem runDays_calls_are_all_entries (env : Env) (cs : List GitCommit)
    (em : List EmailTaskMatch) (cm : List CalendarTaskMatch) (wd : List (String × String)) :
    (runDays env false cs em cm wd).calls =
      (runDays env false cs em cm wd).days.bind
        (fun d => d.entries.map (fun e => mkCall e d.date)) := by
  induction wd with
  | nil => rfl
  | cons hd rest ih =>
    obtain ⟨date, dow⟩ := hd
    have hdate : (processDay env date dow (cs.filter (fun c => c.date == date))
        (emailTasksFor em date) (calTasksFor cm date)).1.date = date := rfl
    simp only [runDays, Bool.false_eq_true, if_false, List.cons_bind, submitGo_calls, ih, hdate]

theorem runDays_failure_recorded (env : Env) (cs : List GitCommit)
    (em : List EmailTaskMatch) (cm : List CalendarTaskMatch) (wd : List (String × String))
    (d : TimesheetDay) (e : TimesheetEntry) (reason : String)
    (hd : d ∈ (runDays env false cs em cm wd).days) (he : e ∈ d.entries)
    (hf : env.createWorklog e.issueKey e.hours d.date e.description = some reason) :
    worklogErrorMsg e.issueKey d.date reason ∈ (runDays env false cs em cm wd).errors := by
  induction wd with
  | nil => simp [runDays] at hd
  | cons hdw rest ih =>
    obtain ⟨date, dow⟩ := hdw
    simp only [runDays, Bool.false_eq_true, if_false] at hd ⊢
    simp only [List.mem_append]
    rcases List.mem_cons.mp hd with rfl | hmem
    · exact Or.inl (Or.inr (submitGo_errs_mem env _ _ e reason he hf))
    · exact Or.inr (ih hmem)

/-- Claim C7: with the same commits, matched signals and oracle results, a
dry run produces exactly the same list of days (entries, hours and
descriptions included) as a non-dry run; the only differences are that no
`createWorklog` call is attempted and `worklogsCreated` is 0. -/
theorem c7_dry_run_same_days (env : Env) (cs : List GitCommit)
    (em : List EmailTaskMatch) (cm : List CalendarTaskMatch) (wd : List (String × String)) :
    (runDays env true cs em cm wd).days = (runDays env false cs em cm wd).days ∧
    (runDays env true cs em cm wd).calls = [] ∧
    (runDays env true cs em cm wd).worklogsCreated = 0 := by
  exact ⟨runDays_days_indep env true false cs em cm wd,
    (runDays_dry_no_calls env cs em cm wd).1,
    (runDays_dry_no_calls env cs em cm wd).2⟩

/-- Claim C8: in a non-dry run, a worklog-creation call is attempted for
every entry of every emitted day, in order, regardless of failures; and
each failing call records an error string carrying the issue key, the date
and the reason in the week's error list. -/
theorem c8_failure_does_not_stop_submission (env : Env) (cs : List GitCommit)
    (em : List EmailTaskMatch) (cm : List CalendarTaskMatch) (wd : List (String × String)) :
    (runDays env false cs em cm wd).calls =
      (runDays env false cs em cm wd).days.bind
        (fun d => d.entries.map (fun e => mkCall e d.date)) ∧
    (∀ d ∈ (runDays env false cs em cm wd).days, ∀ e ∈ d.entries, ∀ reason,
      env.createWorklog e.issueKey e.hours d.date e.description = some reason →
      worklogErrorMsg e.issueKey d.date reason ∈ (runDays env false cs em cm wd).errors) := by
  refine ⟨runDays_calls_are_all_entries env cs em cm wd, ?_⟩
  intro d hd e he reason hf
  exact runDays_failure_recorded env cs em cm wd d e reason hd he hf

theorem c8_witness :
    worklogErrorMsg "XX-1" "2025-01-06" "boom" ∈
      (runDays envFail false [commitFail] [] [] [("2025-01-06", "Monday")]).errors := by
  have hdays : (runDays envFail false [commitFail] [] [] [("2025-01-06", "Monday")]).days =
      [dayFail] := by
    norm_num +decide [runDays, processDay, preNormAcc, allocAcc, allocFromGroups,
      issueCommitsOf, issueCommitsGo, upsertKeys, upsertPush, mainProjectOf, projLinesGo,
      upsertAdd, projKeyOf, keyHead, groupWeight, multiplierOf, sprintGo, addEmailGo,
      addCalGo, envFail, commitFail, dayFail, availMinutes, emailTasksFor, calTasksFor,
      normalizeDay, scaledEntries, normDiff, sumHours, bestAdjustable, isFixedMeeting,
      roundQ4, jsRound, submitGo, mkCall, worklogErrorMsg]
  have hmem : dayFail ∈ (runDays envFail false [commitFail] [] [] [("2025-01-06", "Monday")]).days := by
    rw [hdays]
    exact List.mem_cons_self _ _
  have hentry : entryFailX ∈ dayFail.entries := List.mem_cons_self _ _
  exact (c8_failure_does_not_stop_submission envFail [commitFail] [] []
    [("2025-01-06", "Monday")]).2 dayFail hmem _ hentry "boom" (by norm_num [envFail, dayFail, entryFailX])

/-- Claim C10: the MCP tool handler defaults a missing `dryRun` argument to
`true`, so the tool-invoked run attempts no worklog creation and reports 0
worklogs created; `TempoClient.generateTimesheet` itself defaults a missing
`dryRun` to `false` and attempts a creation call for every entry. -/
theorem c10_handler_and_client_defaults (raw : ToolCallArgs) (hraw : raw.dryRun = none)
    (p : GenerateTimesheetParams) (hp : p.dryRun = none) (env : Env)
    (cs : List GitCommit) (em : List EmailTaskMatch) (cm : List CalendarTaskMatch)
    (wd : List (String × String)) (je dp dm : String) :
    resolvedDryRun (handlerParams raw je dp dm) = true ∧
    (generateTimesheetRun env wd cs em cm (handlerParams raw je dp dm)).calls = [] ∧
    (generateTimesheetRun env wd cs em cm (handlerParams raw je dp dm)).worklogsCreated = 0 ∧
    resolvedDryRun p = false ∧
    (generateTimesheetRun env wd cs em cm p).calls =
      (generateTimesheetRun env wd cs em cm p).days.bind
        (fun d => d.entries.map (fun e => mkCall e d.date)) := by
  have h1 : resolvedDryRun (handlerParams raw je dp dm) = true := by
    simp [resolvedDryRun, handlerParams, hraw]
  have h4 : resolvedDryRun p = false := by
    simp [resolvedDryRun, hp]
  refine ⟨h1, ?_, ?_, h4, ?_⟩
  · unfold generateTimesheetRun
    rw [h1]
    exact (runDays_dry_no_calls env cs em cm wd).1
  · unfold generateTimesheetRun
    rw [h1]
    exact (runDays_dry_no_calls env cs em cm wd).2
  · unfold generateTimesheetRun
    rw [h4]
    exact runDays_calls_are_all_entries env cs em cm wd

theorem c10_witness :
    resolvedDryRun (handlerParams rawArgsW "a@b.c" "/p" "BS-14") = true ∧
    (generateTimesheetRun envFail [("2025-01-06", "Monday")] [commitFail] [] []
      (handlerParams rawArgsW "a@b.c" "/p" "BS-14")).calls = [] ∧
    resolvedDryRun clientParamsW = false := by
  have h := c10_handler_and_client_defaults rawArgsW (by decide) clientParamsW (by decide)
    envFail [commitFail] [] [] [("2025-01-06", "Monday")] "a@b.c" "/p" "BS-14"
  exact ⟨h.1, h.2.1, h.2.2.2.1⟩

theorem sprintGo_skip (env : Env) (mp : String) (acc : DayAcc) (evs : List CalendarEvent)
    (h : ∀ ev ∈ evs, isSprintMeetingTitle (lowerStr ev.title) = false) :
    sprintGo env mp acc evs = acc := by
  induction evs with
  | nil => rfl
  | cons ev rest ih =>
    have hev := h ev (List.mem_cons_self _ _)
    simp only [sprintGo, hev, Bool.not_false, if_true]
    exact ih (fun x hx => h x (List.mem_cons_of_mem _ hx))

/-- Claim C2 (amended): a zero-commit workday always pushes the "No commits
found for <weekday> (<date>)" warning onto the week's error list; and if the
day additionally has no sprint-meeting-titled calendar events and no matched
email or calendar tasks, the emitted day has an empty entry list and
`totalHours = 0`.  Calendar and email signals, however, can still populate a
zero-commit day (which is then normalized to 8 h). -/
theorem c2_zero_commit_day_amended (env : Env) (dry : Bool) (cs : List GitCommit)
    (em : List EmailTaskMatch) (cm : List CalendarTaskMatch)
    (date dow : String) (rest : List (String × String))
    (hnc : cs.filter (fun c => c.date == date) = []) :
    noCommitsMsg dow date ∈ (runDays env dry cs em cm ((date, dow) :: rest)).errors ∧
    ((env.calendarEventsFor date).filter
        (fun ev => isSprintMeetingTitle (lowerStr ev.title)) = [] →
      emailTasksFor em date = [] → calTasksFor cm date = [] →
      (runDays env dry cs em cm ((date, dow) :: rest)).days.head? =
        some { date := date, dayOfWeek := dow, entries := [], totalHours := 0 }) := by
  constructor
  · simp only [runDays, hnc]
    have hw : (processDay env date dow [] (emailTasksFor em date) (calTasksFor cm date)).2 =
        [noCommitsMsg dow date, env.debugLine date] := rfl
    simp [hw]
  · intro hcal hem hcm
    simp only [runDays, hnc, hem, hcm, List.head?_cons]
    have hday : processDay env date dow [] [] [] =
        ({ date := date, dayOfWeek := dow, entries := [], totalHours := 0 }, 
         [noCommitsMsg dow date, env.debugLine date]) := by
      unfold processDay preNormAcc
      have hskip : sprintGo env (mainProjectOf []) (allocAcc env (availMinutes dow)
          (issueCommitsOf [])) (env.calendarEventsFor date) =
          allocAcc env (availMinutes dow) (issueCommitsOf []) := by
        apply sprintGo_skip
        intro ev hev
        have := List.filter_eq_nil_iff.mp hcal ev hev
        simpa using this
      simp only [hskip]
      rfl
    rw [hday]

/-- Claim C2, counterexample: a workday with zero commits but one daily
calendar event gets one entry and a full fabricated 8-hour total (the "no
commits" warning is still pushed): the day is neither empty nor 0 h. -/
theorem c2_counterexample :
    ((runDays envC2 true [] [] [] [("2025-01-07", "Tuesday")]).days.head?).map
      (fun d => d.entries.length) = some 1 ∧
    ((runDays envC2 true [] [] [] [("2025-01-07", "Tuesday")]).days.head?).map
      (fun d => d.totalHours) = some 8 ∧
    noCommitsMsg "Tuesday" "2025-01-07" ∈
      (runDays envC2 true [] [] [] [("2025-01-07", "Tuesday")]).errors := by
  refine ⟨?_, ?_, ?_⟩ <;>
    norm_num +decide [runDays, processDay, preNormAcc, allocAcc, allocFromGroups,
      issueCommitsOf, issueCommitsGo, mainProjectOf, projLinesGo, sprintGo, addEmailGo,
      addCalGo, envC2, availMinutes, emailTasksFor, calTasksFor, orStr, meetingDesc,
      idxOfP, bumpAt, normalizeDay, scaledEntries, normDiff, sumHours, bestAdjustable,
      isFixedMeeting, roundQ4, jsRound, noCommitsMsg]

theorem c2_witness :
    noCommitsMsg "Tuesday" "2025-01-07" ∈
      (runDays envFail true [] [] [] [("2025-01-07", "Tuesday")]).errors ∧
    (runDays envFail true [] [] [] [("2025-01-07", "Tuesday")]).days.head? =
      some { date := "2025-01-07", dayOfWeek := "Tuesday", entries := [], totalHours := 0 } := by
  have h := c2_zero_commit_day_amended envFail true [] [] [] "2025-01-07" "Tuesday" []
    (by decide)
  exact ⟨h.1, h.2 (by decide) (by decide) (by decide)⟩

theorem roundedDuration_durOK (m : ℚ) : durOK (roundedDuration m) := by
  unfold roundedDuration durOK
  rcases le_total ((jsRound (m / 15) : ℚ) * 15) 15 with h | h
  · exact ⟨1, le_refl 1, by rw [max_eq_left h]; norm_num⟩
  · refine ⟨(jsRound (m / 15)).toNat, ?_, ?_⟩
    · have h1 : (1 : ℚ) ≤ (jsRound (m / 15) : ℚ) := by linarith
      have h2 : (1 : ℤ) ≤ jsRound (m / 15) := by exact_mod_cast h1
      omega
    · rw [max_eq_right h]
      have h1 : (1 : ℚ) ≤ (jsRound (m / 15) : ℚ) := by linarith
      have h2 : (1 : ℤ) ≤ jsRound (m / 15) := by exact_mod_cast h1
      have h3 : ((jsRound (m / 15)).toNat : ℤ) = jsRound (m / 15) := Int.toNat_of_nonneg (by omega)
      have h4 : ((jsRound (m / 15)).toNat : ℚ) = (jsRound (m / 15) : ℚ) := by exact_mod_cast h3
      rw [h4]
      ring

theorem durOK_div60 {m : ℚ} (h : durOK m) : 1/4 ≤ m / 60 ∧ mult4 (m / 60) := by
  obtain ⟨k, hk, rfl⟩ := h
  constructor
  · rw [div_le_div_iff] <;> try norm_num
    · have : (1 : ℚ) ≤ (k : ℚ) := by exact_mod_cast hk
      nlinarith
  · exact ⟨(k : ℤ), by push_cast; ring⟩

theorem bumpAt_entryOK (l : List TimesheetEntry) (i : Nat) (dh : ℚ) (s : String)
    (hl : ∀ e ∈ l, entryOK e) (hdh0 : 0 ≤ dh) (hdh4 : mult4 dh) :
    ∀ e ∈ bumpAt l i dh s, entryOK e := by
  intro e he
  unfold bumpAt at he
  cases hg : l.get? i with
  | none => rw [hg] at he; exact hl e he
  | some e0 =>
    rw [hg] at he
    rcases List.mem_or_eq_of_mem_set he with h | rfl
    · exact hl e h
    · have he0 : entryOK e0 := hl e0 (List.get?_mem hg)
      exact ⟨by have := he0.1; simp only; linarith, mult4_add he0.2 hdh4⟩

theorem sprintGo_entryOK (env : Env) (mp : String) :
    ∀ (evs : List CalendarEvent) (acc : DayAcc),
      (∀ e ∈ acc.entries, entryOK e) →
      (∀ ev ∈ evs, durOK ev.durationMinutes) →
      ∀ e ∈ (sprintGo env mp acc evs).entries, entryOK e := by
  intro evs
  induction evs with
  | nil => intro acc hacc _; exact hacc
  | cons ev rest ih =>
    intro acc hacc hev
    have hrest : ∀ x ∈ rest, durOK x.durationMinutes :=
      fun x hx => hev x (List.mem_cons_of_mem _ hx)
    have hdur := durOK_div60 (hev ev (List.mem_cons_self _ _))
    simp only [sprintGo]
    by_cases hsm : isSprintMeetingTitle (lowerStr ev.title) = true
    · simp only [hsm, Bool.not_true, Bool.false_eq_true, if_false]
      cases hidx : idxOfP (fun e => e.issueKey == sprintTargetIssue env mp ev) acc.entries with
      | some i =>
        apply ih _ ?_ hrest
        intro e he
        exact bumpAt_entryOK acc.entries i _ "" hacc (by linarith [hdur.1]) hdur.2 e he
      | none =>
        apply ih _ ?_ hrest
        intro e he
        rcases List.mem_append.mp he with h | h
        · exact hacc e h
        · rcases List.mem_singleton.mp h with rfl
          exact ⟨hdur.1, hdur.2⟩
    · simp only [hsm]
      simp only [Bool.not_false, if_true]
      exact ih acc hacc hrest

theorem addEmailGo_entryOK :
    ∀ (ts : List EmailTaskMatch) (acc : DayAcc) (added : List String),
      (∀ e ∈ acc.entries, entryOK e) →
      ∀ e ∈ (addEmailGo acc added ts).entries, entryOK e := by
  intro ts
  induction ts with
  | nil => intro acc added hacc; exact hacc
  | cons t rest ih =>
    intro acc added hacc
    simp only [addEmailGo]
    cases t.issueKey with
    | none => exact ih acc added hacc
    | some k =>
      by_cases hc : ((!(k == "")) && (!(added.contains k))) = true
      · simp only [hc, if_true]
        by_cases hex : acc.entries.any (fun e => e.issueKey == k) = true
        · simp only [hex, if_true]
          exact ih acc added hacc
        · simp only [hex, Bool.false_eq_true, if_false]
          apply ih
          intro e he
          rcases List.mem_append.mp he with h | h
          · exact hacc e h
          · rcases List.mem_singleton.mp h with rfl
            exact ⟨le_refl _, mult4_quarter⟩
      · simp only [hc, Bool.false_eq_true, if_false]
        exact ih acc added hacc

theorem addCalGo_entryOK :
    ∀ (ts : List CalendarTaskMatch) (acc : DayAcc) (added : List String),
      (∀ e ∈ acc.entries, entryOK e) →
      (∀ t ∈ ts, durOK t.event.durationMinutes) →
      ∀ e ∈ (addCalGo acc added ts).entries, entryOK e := by
  intro ts
  induction ts with
  | nil => intro acc added hacc _; exact hacc
  | cons t rest ih =>
    intro acc added hacc hts
    have hrest : ∀ x ∈ rest, durOK x.event.durationMinutes :=
      fun x hx => hts x (List.mem_cons_of_mem _ hx)
    have hdur := durOK_div60 (hts t (List.mem_cons_self _ _))
    simp only [addCalGo]
    cases t.issueKey with
    | none => exact ih acc added hacc hrest
    | some k =>
      by_cases hc : ((!(k == "")) && (!(added.contains k))) = true
      · simp only [hc, if_true]
        cases hidx : idxOfP (fun e => e.issueKey == k) acc.entries with
        | some i =>
          apply ih _ _ ?_ hrest
          intro e he
          exact bumpAt_entryOK acc.entries i _ _ hacc (by linarith [hdur.1]) hdur.2 e he
        | none =>
          apply ih _ _ ?_ hrest
          intro e he
          rcases List.mem_append.mp he with h | h
          · exact hacc e h
          · rcases List.mem_singleton.mp h with rfl
            exact ⟨hdur.1, hdur.2⟩
      · simp only [hc, Bool.false_eq_true, if_false]
        exact ih acc added hacc hrest

theorem allocAcc_entryOK (env : Env) (avail : ℚ) (groups : List (String × List GitCommit)) :
    ∀ e ∈ (allocAcc env avail groups).entries, entryOK e := by
  intro e he
  simp only [allocAcc, allocFromGroups, List.mem_map] at he
  obtain ⟨g, _, rfl⟩ := he
  exact ⟨le_max_left _ _, mult4_max mult4_quarter (roundQ4_mult4 _)⟩

theorem normalizeDay_entryOK (d : DayAcc) :
    ∀ e ∈ (normalizeDay d).entries, entryOK e := by
  intro e he
  unfold normalizeDay at he
  by_cases hempty : d.entries.isEmpty = true
  · rw [if_pos hempty] at he
    have : d.entries = [] := List.isEmpty_iff.mp hempty
    rw [this] at he
    exact absurd he (by simp)
  · rw [if_neg hempty] at he
    simp only at he
    by_cases hcond : 1/4 ≤ |normDiff d|
    · rw [if_pos hcond] at he
      cases hba : bestAdjustable (scaledEntries d) with
      | none =>
        rw [hba] at he
        have := scaledEntries_hours d e he
        exact ⟨this.1, this.2⟩
      | some best =>
        rw [hba] at he
        simp only at he
        rcases List.mem_or_eq_of_mem_set he with h | rfl
        · have := scaledEntries_hours d e h
          exact ⟨this.1, this.2⟩
        · exact ⟨le_max_left _ _, mult4_max mult4_quarter (roundQ4_mult4 _)⟩
    · rw [if_neg hcond] at he
      have := scaledEntries_hours d e he
      exact ⟨this.1, this.2⟩

/-- Claim C4: every entry of an emitted (post-normalization) day has hours
that are a multiple of 0.25 and at least 0.25; the same holds for every
pre-normalization entry provided the calendar durations feeding the day are
positive multiples of 15 minutes — which the collector's rounding
guarantees (third conjunct). -/
theorem c4_hours_quantized :
    (∀ d : DayAcc, ∀ e ∈ (normalizeDay d).entries, entryOK e) ∧
    (∀ (env : Env) (date dow : String) (cs : List GitCommit) (em : List EmailTaskMatch)
        (cm : List CalendarTaskMatch),
      (∀ ev ∈ env.calendarEventsFor date, durOK ev.durationMinutes) →
      (∀ t ∈ cm, durOK t.event.durationMinutes) →
      ∀ e ∈ (preNormAcc env date dow cs em cm).entries, entryOK e) ∧
    (∀ m : ℚ, durOK (roundedDuration m)) := by
  refine ⟨normalizeDay_entryOK, ?_, roundedDuration_durOK⟩
  intro env date dow cs em cm hev hcm
  unfold preNormAcc
  apply addCalGo_entryOK _ _ _ ?_ hcm
  apply addEmailGo_entryOK
  apply sprintGo_entryOK _ _ _ _ ?_ hev
  exact allocAcc_entryOK env (availMinutes dow) (issueCommitsOf cs)

theorem c4_witness : entryOK meetingEntryM := by
  apply c4_hours_quantized.1 dayM
  have h : (normalizeDay dayM).entries = dayM.entries := by
    norm_num +decide [normalizeDay, dayM, scaledEntries, normDiff, sumHours,
      bestAdjustable, isFixedMeeting, roundQ4, jsRound, meetingEntryM]
  rw [h]
  exact List.mem_cons_self _ _

theorem contains_mem {α : Type} [DecidableEq α] (l : List α) (a : α) :
    l.contains a = true ↔ a ∈ l := by
  simp

theorem dedupSeen_congr {α : Type} [DecidableEq α] (seen₁ seen₂ : List α)
    (h : ∀ x, x ∈ seen₁ ↔ x ∈ seen₂) : ∀ l : List α, dedupSeen seen₁ l = dedupSeen seen₂ l := by
  intro l
  induction l generalizing seen₁ seen₂ with
  | nil => rfl
  | cons a l ih =>
    simp only [dedupSeen]
    by_cases ha : a ∈ seen₁
    · have h1 : seen₁.contains a = true := (contains_mem _ _).mpr ha
      have h2 : seen₂.contains a = true := (contains_mem _ _).mpr ((h a).mp ha)
      rw [h1, h2]
      simp only [if_true]
      exact ih seen₁ seen₂ h
    · have h1 : seen₁.contains a = false := by
        rw [← Bool.not_eq_true]
        intro hc
        exact ha ((contains_mem _ _).mp hc)
      have h2 : seen₂.contains a = false := by
        rw [← Bool.not_eq_true]
        intro hc
        exact ha ((h a).mpr ((contains_mem _ _).mp hc))
      rw [h1, h2]
      simp only [Bool.false_eq_true, if_false]
      rw [ih (a :: seen₁) (a :: seen₂) (by
        intro x
        simp only [List.mem_cons]
        constructor
        · rintro (rfl | hx)
          · exact Or.inl rfl
          · exact Or.inr ((h x).mp hx)
        · rintro (rfl | hx)
          · exact Or.inl rfl
          · exact Or.inr ((h x).mpr hx))]

theorem dedupSeen_append {α : Type} [DecidableEq α] :
    ∀ (a b seen : List α), dedupSeen seen (a ++ b) = dedupSeen seen a ++ dedupSeen (a ++ seen) b := by
  intro a
  induction a with
  | nil => intro b seen; simp [dedupSeen]
  | cons x a' ih =>
    intro b seen
    simp only [List.cons_append, dedupSeen, List.append_eq]
    by_cases hx : seen.contains x = true
    · rw [hx]
      simp only [if_true]
      rw [ih b seen]
      congr 1
      apply dedupSeen_congr
      intro y
      have hxm : x ∈ seen := (contains_mem _ _).mp hx
      simp only [List.mem_append, List.mem_cons]
      constructor
      · intro hy
        tauto
      · intro hy
        rcases hy with rfl | hy
        · tauto
        · tauto
    · rw [Bool.not_eq_true] at hx
      rw [hx]
      simp only [Bool.false_eq_true, if_false]
      rw [ih b (x :: seen)]
      simp only [List.cons_append]
      congr 2
      apply dedupSeen_congr
      intro y
      simp only [List.mem_append, List.mem_cons]
      tauto

theorem dedupSeen_filter {α : Type} [DecidableEq α] :
    ∀ (b s₁ s₂ : List α),
      dedupSeen (s₁ ++ s₂) b = dedupSeen s₁ (b.filter (fun x => !(s₂.contains x))) := by
  intro b
  induction b with
  | nil => intro s₁ s₂; rfl
  | cons x b ih =>
    intro s₁ s₂
    simp only [dedupSeen, List.filter_cons]
    by_cases hx2 : s₂.contains x = true
    · have hc : (s₁ ++ s₂).contains x = true :=
        (contains_mem _ _).mpr (List.mem_append.mpr (Or.inr ((contains_mem _ _).mp hx2)))
      rw [hc, hx2]
      simp only [Bool.not_true, Bool.false_eq_true, if_true, if_false]
      exact ih s₁ s₂
    · rw [Bool.not_eq_true] at hx2
      rw [hx2]
      simp only [Bool.not_false, if_true]
      by_cases hx1 : s₁.contains x = true
      · have hc : (s₁ ++ s₂).contains x = true :=
          (contains_mem _ _).mpr (List.mem_append.mpr (Or.inl ((contains_mem _ _).mp hx1)))
        rw [hc]
        simp only [dedupSeen, hx1, if_true]
        exact ih s₁ s₂
      · rw [Bool.not_eq_true] at hx1
        have hc : (s₁ ++ s₂).contains x = false := by
          rw [← Bool.not_eq_true]
          intro hcon
          rcases List.mem_append.mp ((contains_mem _ _).mp hcon) with h | h
          · rw [(contains_mem _ _).mpr h] at hx1; exact absurd hx1 (by simp)
          · rw [(contains_mem _ _).mpr h] at hx2; exact absurd hx2 (by simp)
        rw [hc]
        simp only [dedupSeen, hx1, Bool.false_eq_true, if_false]
        congr 1
        rw [show x :: (s₁ ++ s₂) = (x :: s₁) ++ s₂ from rfl]
        exact ih (x :: s₁) s₂

theorem dedupFirstL_append {α : Type} [DecidableEq α] (a b : List α) :
    dedupFirstL (a ++ b) = dedupFirstL a ++ dedupFirstL (b.filter (fun x => !(a.contains x))) := by
  unfold dedupFirstL
  rw [dedupSeen_append a b []]
  congr 1
  have h1 : dedupSeen (a ++ []) b = dedupSeen ([] ++ a) b := by
    apply dedupSeen_congr
    intro x
    simp
  rw [h1, dedupSeen_filter b [] a]

theorem dedupSeen_of_nodup {α : Type} [DecidableEq α] :
    ∀ (l seen : List α), l.Nodup → (∀ x ∈ l, ¬ x ∈ seen) → dedupSeen seen l = l := by
  intro l
  induction l with
  | nil => intro seen _ _; rfl
  | cons x l ih =>
    intro seen hnd hdis
    simp only [dedupSeen]
    have hx : seen.contains x = false := by
      rw [← Bool.not_eq_true]
      intro hc
      exact hdis x (List.mem_cons_self _ _) ((contains_mem _ _).mp hc)
    rw [hx]
    simp only [Bool.false_eq_true, if_false]
    rw [ih (x :: seen) (List.Nodup.of_cons hnd) ?_]
    intro y hy
    simp only [List.mem_cons]
    rintro (rfl | hmem)
    · exact (List.nodup_cons.mp hnd).1 hy
    · exact hdis y (List.mem_cons_of_mem _ hy) hmem

theorem dedupFirstL_of_nodup {α : Type} [DecidableEq α] (l : List α) (h : l.Nodup) :
    dedupFirstL l = l :=
  dedupSeen_of_nodup l [] h (by simp)

theorem contains_cons_of_ne {α : Type} [DecidableEq α] (k₀ a : α) (l : List α) (h : a ≠ k₀) :
    ((k₀ :: l).contains a) = (l.contains a) := by
  cases hc : l.contains a
  · rw [← Bool.not_eq_true]
    intro hcon
    rcases List.mem_cons.mp ((contains_mem _ _).mp hcon) with rfl | hm
    · exact h rfl
    · rw [(contains_mem _ _).mpr hm] at hc
      exact absurd hc (by simp)
  · exact (contains_mem _ _).mpr (List.mem_cons_of_mem _ ((contains_mem _ _).mp hc))

theorem upsertValue_merge (f : String → List GitCommit) (c : GitCommit) (k₀ : String)
    (ks' : List String) (hk₀ : ¬ k₀ ∈ ks') (a : String) :
    (f a ++ if a = k₀ then [c] else []) ++ (if ks'.contains a then [c] else []) =
      f a ++ (if (k₀ :: ks').contains a then [c] else []) := by
  by_cases hak : a = k₀
  · subst hak
    have h1 : ks'.contains a = false := by
      rw [← Bool.not_eq_true]
      intro hcon
      exact hk₀ ((contains_mem _ _).mp hcon)
    have h2 : ((a :: ks').contains a) = true := (contains_mem _ _).mpr (List.mem_cons_self _ _)
    simp [h1, h2, hk₀]
  · rw [contains_cons_of_ne k₀ a ks' hak]
    cases hc : ks'.contains a <;> simp [hak, hc]

theorem upsertPush_mem (M : List String) (f : String → List GitCommit) (k₀ : String)
    (c : GitCommit) (hk : k₀ ∈ M) :
    upsertPush (M.map fun k => (k, f k)) k₀ c =
      M.map (fun j => (j, f j ++ if j = k₀ then [c] else [])) := by
  unfold upsertPush
  have hany : (M.map fun k => (k, f k)).any (fun p => p.1 == k₀) = true := by
    rw [List.any_eq_true]
    exact ⟨(k₀, f k₀), List.mem_map_of_mem _ hk, by simp⟩
  rw [hany]
  simp only [if_true, List.map_map]
  apply List.map_congr_left
  intro a _
  by_cases ha : a = k₀
  · subst ha
    simp [Function.comp]
  · simp [Function.comp, ha]

theorem upsertPush_new (M : List String) (f : String → List GitCommit) (k₀ : String)
    (c : GitCommit) (hk : ¬ k₀ ∈ M) (hf : f k₀ = []) :
    upsertPush (M.map fun k => (k, f k)) k₀ c =
      (M ++ [k₀]).map (fun j => (j, f j ++ if j = k₀ then [c] else [])) := by
  unfold upsertPush
  have hany : (M.map fun k => (k, f k)).any (fun p => p.1 == k₀) = false := by
    rw [← Bool.not_eq_true]
    intro hcon
    rw [List.any_eq_true] at hcon
    obtain ⟨p, hp, hpk⟩ := hcon
    obtain ⟨a, ha, rfl⟩ := List.mem_map.mp hp
    simp only [beq_iff_eq] at hpk
    exact hk (hpk ▸ ha)
  rw [hany]
  simp only [Bool.false_eq_true, if_false, List.map_append]
  congr 1
  · apply List.map_congr_left
    intro a ha
    have hne : a ≠ k₀ := fun h => hk (h ▸ ha)
    simp [hne]
  · simp [hf]

theorem upsertKeys_spec (c : GitCommit) :
    ∀ (ks : List String) (M : List String) (f : String → List GitCommit),
      ks.Nodup → M.Nodup → (∀ j, ¬ j ∈ M → f j = []) →
      upsertKeys c (M.map fun k => (k, f k)) ks =
        (M ++ ks.filter (fun k => !(M.contains k))).map
          (fun k => (k, f k ++ if ks.contains k then [c] else [])) := by
  intro ks
  induction ks with
  | nil =>
    intro M f _ _ _
    simp only [upsertKeys, List.filter_nil, List.append_nil]
    apply List.map_congr_left
    intro a _
    simp [List.contains_nil]
  | cons k₀ ks' ih =>
    intro M f hks hM hf
    have hks' : ks'.Nodup := List.Nodup.of_cons hks
    have hk₀ : ¬ k₀ ∈ ks' := (List.nodup_cons.mp hks).1
    simp only [upsertKeys]
    by_cases hmem : k₀ ∈ M
    · rw [upsertPush_mem M f k₀ c hmem]
      have hf' : ∀ j, ¬ j ∈ M → f j ++ (if j = k₀ then [c] else []) = [] := by
        intro j hj
        have hne : j ≠ k₀ := fun h => hj (h ▸ hmem)
        simp [hf j hj, hne]
      rw [ih M (fun j => f j ++ if j = k₀ then [c] else []) hks' hM hf']
      have hkeys : (k₀ :: ks').filter (fun k => !(M.contains k)) =
          ks'.filter (fun k => !(M.contains k)) := by
        rw [List.filter_cons]
        have hck : M.contains k₀ = true := (contains_mem _ _).mpr hmem
        simp [hck, hmem]
      rw [hkeys]
      apply List.map_congr_left
      intro a _
      rw [upsertValue_merge f c k₀ ks' hk₀ a]
    · rw [upsertPush_new M f k₀ c hmem (hf k₀ hmem)]
      have hnd : (M ++ [k₀]).Nodup := by
        simp only [List.nodup_append, List.nodup_singleton]
        exact ⟨hM, trivial, by simpa using fun h => hmem h⟩
      have hf' : ∀ j, ¬ j ∈ M ++ [k₀] → f j ++ (if j = k₀ then [c] else []) = [] := by
        intro j hj
        simp only [List.mem_append, List.mem_singleton, not_or] at hj
        simp [hf j hj.1, hj.2]
      rw [ih (M ++ [k₀]) (fun j => f j ++ if j = k₀ then [c] else []) hks' hnd hf']
      have hfilter : ks'.filter (fun k => !((M ++ [k₀]).contains k)) =
          ks'.filter (fun k => !(M.contains k)) := by
        apply List.filter_congr
        intro a ha
        have hne : a ≠ k₀ := fun h => hk₀ (h ▸ ha)
        cases hc : M.contains a
        · have hcc : ((M ++ [k₀]).contains a) = false := by
            rw [← Bool.not_eq_true]
            intro hcon
            rcases List.mem_append.mp ((contains_mem _ _).mp hcon) with hmm | hmm
            · rw [(contains_mem _ _).mpr hmm] at hc
              exact absurd hc (by simp)
            · exact hne (List.mem_singleton.mp hmm)
          simp only [hcc, hc]
        · have hcc : ((M ++ [k₀]).contains a) = true :=
            (contains_mem _ _).mpr (List.mem_append.mpr (Or.inl ((contains_mem _ _).mp hc)))
          simp only [hcc, hc]
      rw [hfilter]
      have hkeys : M ++ (k₀ :: ks').filter (fun k => !(M.contains k)) =
          (M ++ [k₀]) ++ ks'.filter (fun k => !(M.contains k)) := by
        rw [List.filter_cons]
        have hc : M.contains k₀ = false := by
          rw [← Bool.not_eq_true]
          intro hcon
          exact hmem ((contains_mem _ _).mp hcon)
        simp only [hc, Bool.not_false, if_true]
        rw [List.append_cons]
      rw [hkeys]
      apply List.map_congr_left
      intro a _
      rw [upsertValue_merge f c k₀ ks' hk₀ a]

theorem not_contains_append {α : Type} [DecidableEq α] (M N : List α) (a : α) :
    (!((M ++ N).contains a)) = ((!(M.contains a)) && (!(N.contains a))) := by
  by_cases hm : a ∈ M
  · rw [(contains_mem _ _).mpr hm,
      (contains_mem _ _).mpr (List.mem_append.mpr (Or.inl hm))]
    rfl
  · by_cases hn : a ∈ N
    · rw [(contains_mem _ _).mpr hn,
        (contains_mem _ _).mpr (List.mem_append.mpr (Or.inr hn))]
      simp
    · have h1 : M.contains a = false := by
        rw [← Bool.not_eq_true]; exact fun hc => hm ((contains_mem _ _).mp hc)
      have h2 : N.contains a = false := by
        rw [← Bool.not_eq_true]; exact fun hc => hn ((contains_mem _ _).mp hc)
      have h3 : (M ++ N).contains a = false := by
        rw [← Bool.not_eq_true]
        intro hc
        rcases List.mem_append.mp ((contains_mem _ _).mp hc) with h | h
        · exact hm h
        · exact hn h
      rw [h1, h2, h3]
      rfl

theorem upsertKeys_nil_or (c : GitCommit) (m : List (String × List GitCommit)) :
    (if c.issueKeys.isEmpty then m else upsertKeys c m c.issueKeys) =
      upsertKeys c m c.issueKeys := by
  cases h : c.issueKeys with
  | nil => rfl
  | cons a l => rfl

theorem issueCommitsGo_spec :
    ∀ (cs : List GitCommit) (M : List String) (f : String → List GitCommit),
      M.Nodup → (∀ j, ¬ j ∈ M → f j = []) → (∀ c ∈ cs, c.issueKeys.Nodup) →
      issueCommitsGo (M.map fun k => (k, f k)) cs =
        (M ++ dedupFirstL ((allKeys cs).filter
            (fun k => !(M.contains k)))).map
          (fun k => (k, f k ++ cs.filter (fun x => x.issueKeys.contains k))) := by
  intro cs
  induction cs with
  | nil =>
    intro M f _ _ _
    simp [issueCommitsGo, dedupFirstL, dedupSeen]
  | cons c cs' ih =>
    intro M f hM hf hcs
    have hcnd : c.issueKeys.Nodup := hcs c (List.mem_cons_self _ _)
    have hcs' : ∀ x ∈ cs', x.issueKeys.Nodup := fun x hx => hcs x (List.mem_cons_of_mem _ hx)
    simp only [issueCommitsGo]
    rw [upsertKeys_nil_or]
    rw [upsertKeys_spec c c.issueKeys M f hcnd hM hf]
    have hnewnd : (c.issueKeys.filter (fun k => !(M.contains k))).Nodup :=
      List.Nodup.filter _ hcnd
    have hM' : (M ++ c.issueKeys.filter (fun k => !(M.contains k))).Nodup := by
      rw [List.nodup_append]
      refine ⟨hM, hnewnd, ?_⟩
      intro a haM hanew
      have := (List.mem_filter.mp hanew).2
      rw [(contains_mem _ _).mpr haM] at this
      exact absurd this (by simp)
    have hf' : ∀ j, ¬ j ∈ M ++ c.issueKeys.filter (fun k => !(M.contains k)) →
        f j ++ (if c.issueKeys.contains j then [c] else []) = [] := by
      intro j hj
      simp only [List.mem_append, not_or] at hj
      have hj1 := hf j hj.1
      have hj2 : c.issueKeys.contains j = false := by
        rw [← Bool.not_eq_true]
        intro hc2
        apply hj.2
        apply List.mem_filter.mpr
        refine ⟨(contains_mem _ _).mp hc2, ?_⟩
        have hmc : M.contains j = false := by
          rw [← Bool.not_eq_true]; exact fun hcc => hj.1 ((contains_mem _ _).mp hcc)
        show (!(M.contains j)) = true
        rw [hmc]
        rfl
      rw [hj1, hj2]
      simp
    rw [ih (M ++ c.issueKeys.filter (fun k => !(M.contains k)))
      (fun j => f j ++ if c.issueKeys.contains j then [c] else []) hM' hf' hcs']
    have hkeys : (M ++ c.issueKeys.filter (fun k => !(M.contains k))) ++
        dedupFirstL ((allKeys cs').filter
          (fun k => !((M ++ c.issueKeys.filter (fun j => !(M.contains j))).contains k))) =
        M ++ dedupFirstL ((allKeys (c :: cs')).filter
          (fun k => !(M.contains k))) := by
      rw [show allKeys (c :: cs') = c.issueKeys ++ allKeys cs' from rfl,
        List.filter_append, dedupFirstL_append,
        dedupFirstL_of_nodup _ hnewnd, List.append_assoc]
      congr 2
      apply congrArg
      rw [List.filter_filter]
      apply List.filter_congr
      intro a _
      rw [not_contains_append]
      rw [Bool.and_comm]
    rw [hkeys]
    apply List.map_congr_left
    intro a _
    rw [List.filter_cons]
    cases hc2 : c.issueKeys.contains a
    · simp only [Bool.false_eq_true, if_false, List.append_nil]
    · simp only [if_true, List.append_assoc, List.singleton_append]

theorem issueCommitsOf_eq (cs : List GitCommit) (h : ∀ c ∈ cs, c.issueKeys.Nodup) :
    issueCommitsOf cs = (kordOf cs).map (fun k => (k, commitsNaming cs k)) := by
  have hspec := issueCommitsGo_spec cs [] (fun _ => []) List.nodup_nil (fun _ _ => rfl) h
  simp only [List.map_nil, List.nil_append] at hspec
  unfold issueCommitsOf
  rw [hspec]
  have hfilt : (allKeys cs).filter (fun k => !(([] : List String).contains k)) =
      allKeys cs := by
    apply List.filter_eq_self.mpr
    intro a _
    simp [List.contains_nil]
  rw [hfilt]
  apply List.map_congr_left
  intro a _
  rfl

/-- Claim C3: for a day's commits (whose per-commit key lists are duplicate
free, as the extractor guarantees), the pre-normalization allocation assigns
to each issue key, in order of first appearance, exactly
`max(0.25, roundTo15Min(available_minutes * (issue_weight / total_weight) / 60))`
hours, where the issue weight is the summed `linesChanged` of the commits
naming that key times the story-point multiplier (1 when no estimate). -/
theorem c3_allocation_formula (env : Env) (avail : ℚ) (cs : List GitCommit)
    (h : ∀ c ∈ cs, c.issueKeys.Nodup) :
    allocFromGroups env avail (issueCommitsOf cs) =
      (kordOf cs).map (fun k =>
        { issueKey := k
          hours := max (1/4 : ℚ)
            (roundQ4 ((avail * (weightFor env cs k / totalWeightFor env cs)) / 60))
          description := env.describeCommits (commitsNaming cs k)
          project := keyHead k }) := by
  rw [issueCommitsOf_eq cs h]
  simp only [allocFromGroups]
  rw [List.map_map]
  have hs : (((kordOf cs).map (fun k => (k, commitsNaming cs k))).map (groupWeight env)).sum
      = totalWeightFor env cs := by
    rw [List.map_map]
    unfold totalWeightFor
    apply congrArg
    apply List.map_congr_left
    intro a _
    rfl
  apply List.map_congr_left
  intro k _
  simp only [Function.comp_apply]
  rw [hs]
  rfl

/-- The C3 formula instantiated at a concrete two-commit day with 480
available minutes. -/
theorem c3_witness :
    (∀ c ∈ csW, c.issueKeys.Nodup) ∧
      allocFromGroups envFail 480 (issueCommitsOf csW) =
        (kordOf csW).map (fun k =>
          { issueKey := k
            hours := max (1/4 : ℚ)
              (roundQ4 ((480 * (weightFor envFail csW k / totalWeightFor envFail csW)) / 60))
            description := envFail.describeCommits (commitsNaming csW k)
            project := keyHead k }) :=
  ⟨by decide, c3_allocation_formula envFail 480 csW (by decide)⟩

theorem bestCandidate_sound (mp : Option JiraProject) (kws : List String)
    (pool : List SprintIssue) :
    ∀ (best : Option (SprintIssue × ℚ)) (issue : SprintIssue) (s : ℚ),
      bestCandidate mp kws pool best = some (issue, s) →
      best = some (issue, s) ∨
        (issue ∈ pool ∧ s = candScore mp kws issue ∧ s > 3/10) := by
  induction pool with
  | nil =>
    intro best issue s h
    exact Or.inl h
  | cons i rest ih =>
    intro best issue s h
    simp only [bestCandidate] at h
    rcases ih _ issue s h with hk | hmem
    · by_cases hc : candScore mp kws i > 3/10 ∧
          (best = none ∨ ∀ b ∈ best, candScore mp kws i > b.2)
      · rw [if_pos hc] at hk
        simp only [Option.some.injEq, Prod.mk.injEq] at hk
        obtain ⟨h1, h2⟩ := hk
        subst h1
        subst h2
        exact Or.inr ⟨List.mem_cons_self _ _, rfl, hc.1⟩
      · rw [if_neg hc] at hk
        exact Or.inl hk
    · exact Or.inr ⟨List.mem_cons_of_mem _ hmem.1, hmem.2⟩

/-- Claim C6 (amended): for a signal with no explicit issue key, a returned
key always comes from a pool candidate whose TOTAL score — keyword
similarity plus the 0.3 project-affinity bonus — is strictly above the 0.3
threshold. The spec's claim that the similarity score alone must clear the
threshold is false: the bonus counts toward it (see the counterexample,
where a candidate with similarity 0.25 is accepted). -/
theorem c6_matcher_threshold_amended
    (projects : List JiraProject) (sprintIssues : List SprintIssue)
    (ev : CalendarEvent) (email : EmailMessage) :
    (∀ m, matchOneCalendarEvent projects sprintIssues ev = some m →
      scanTokens ev.title.data = [] →
      (∀ d, ev.description = some d → scanTokens d.data = []) →
      ∀ k, m.issueKey = some k →
        ∃ issue ∈ sprintIssues, issue.key = k ∧
          candScore (attendeeProject projects ev.attendees)
            (extractKeywords (ev.title ++ " " ++ ev.description.getD "")) issue > 3/10) ∧
    (∀ m, matchOneEmail projects sprintIssues email = some m →
      scanTokens email.subject.data = [] →
      scanTokens email.snippet.data = [] →
      ∀ k, m.issueKey = some k →
        ∃ issue ∈ sprintIssues, issue.key = k ∧
          candScore
            (match extractCompanyFromEmail email with
             | some co => findProjectByCompany projects co
             | none => none)
            (extractKeywords (email.subject ++ " " ++ email.snippet)) issue > 3/10) := by
  constructor
  · intro m hm ht hd k hk
    have hdk : (match ev.description with
        | some d => scanTokens d.data
        | none => []) = ([] : List (List Char)) := by
      cases hdesc : ev.description with
      | none => rfl
      | some d => exact hd d hdesc
    simp only [matchOneCalendarEvent, ht, hdk] at hm
    by_cases hke : (extractKeywords (ev.title ++ " " ++ ev.description.getD "")).isEmpty = true
    · rw [if_pos hke] at hm
      exact Option.noConfusion hm
    · rw [if_neg hke] at hm
      cases hb : bestCandidate (attendeeProject projects ev.attendees)
          (extractKeywords (ev.title ++ " " ++ ev.description.getD "")) sprintIssues none with
      | none =>
        rw [hb] at hm
        exact Option.noConfusion hm
      | some p =>
        obtain ⟨issue, score⟩ := p
        rw [hb] at hm
        dsimp only at hm
        have hmv : m =
            ⟨ev, some issue.key, if score > 1/2 then Conf.high else Conf.medium⟩ := by
          injection hm with h1
          exact h1.symm
        rcases bestCandidate_sound _ _ sprintIssues none issue score hb with hnone | hmem
        · exact Option.noConfusion hnone
        · rw [hmv] at hk
          simp only [Option.some.injEq] at hk
          exact ⟨issue, hmem.1, hk, hmem.2.1 ▸ hmem.2.2⟩
  · intro m hm ht hs k hk
    simp only [matchOneEmail, ht, hs] at hm
    by_cases hke : (extractKeywords (email.subject ++ " " ++ email.snippet)).isEmpty = true
    · rw [if_pos hke] at hm
      exact Option.noConfusion hm
    · rw [if_neg hke] at hm
      cases hb : bestCandidate
          (match extractCompanyFromEmail email with
           | some co => findProjectByCompany projects co
           | none => none)
          (extractKeywords (email.subject ++ " " ++ email.snippet)) sprintIssues none with
      | none =>
        rw [hb] at hm
        exact Option.noConfusion hm
      | some p =>
        obtain ⟨issue, score⟩ := p
        rw [hb] at hm
        dsimp only at hm
        have hmv : m =
            ⟨email, some issue.key, if score > 1/2 then Conf.high else Conf.medium⟩ := by
          injection hm with h1
          exact h1.symm
        rcases bestCandidate_sound _ _ sprintIssues none issue score hb with hnone | hmem
        · exact Option.noConfusion hnone
        · rw [hmv] at hk
          simp only [Option.some.injEq] at hk
          exact ⟨issue, hmem.1, hk, hmem.2.1 ▸ hmem.2.2⟩

/-- Claim C6 counterexample: the matcher accepts issue AC-9 for an event
whose keyword similarity against it is only 0.25, below the documented 0.3
threshold — the 0.3 project-affinity bonus is what clears the bar. -/
theorem c6_counterexample :
    (matchOneCalendarEvent projsC6 poolC6 evC6).map (fun m => m.issueKey) =
      some (some "AC-9") ∧
    calculateSimilarity (extractKeywords (evC6.title ++ " " ++ evC6.description.getD ""))
        (extractKeywords "alphax gamma") = 1/4 ∧
    (1/4 : ℚ) < 3/10 := by
  refine ⟨?_, ?_, by norm_num⟩ <;>
    norm_num +decide [matchOneCalendarEvent, projsC6, poolC6, evC6, attendeeProject,
      extractKeywords, bestCandidate, candScore, calculateSimilarity, simScore,
      projectBonus, dedupFirstL, dedupSeen, scanTokens, scanTokensF, matchAt,
      isUpperC, isDigitC, isAlnumU, domainAfterAt, findProjectByCompany, lowerStr,
      lowerChar, hasSubstr, startsWithSeq, containsSeq, trimStr, splitEvery,
      splitRunGo, splitRunGoF, kwSepChar, stopWords, isNumericTok]

/-- The C6 theorem instantiated at the concrete AC-9 scenario. -/
theorem c6_witness :
    ∃ issue ∈ poolC6, issue.key = "AC-9" ∧
      candScore (attendeeProject projsC6 evC6.attendees)
        (extractKeywords (evC6.title ++ " " ++ evC6.description.getD "")) issue > 3/10 :=
  (c6_matcher_threshold_amended projsC6 poolC6 evC6 emailW).1 mC6
    (by norm_num +decide [matchOneCalendarEvent, projsC6, poolC6, evC6, mC6,
      attendeeProject, extractKeywords, bestCandidate, candScore, calculateSimilarity,
      simScore, projectBonus, dedupFirstL, dedupSeen, scanTokens, scanTokensF, matchAt,
      isUpperC, isDigitC, isAlnumU, domainAfterAt, findProjectByCompany, lowerStr,
      lowerChar, hasSubstr, startsWithSeq, containsSeq, trimStr, splitEvery,
      splitRunGo, splitRunGoF, kwSepChar, stopWords, isNumericTok])
    (by decide)
    (fun d hd => by simp [evC6] at hd)
    "AC-9" rfl

theorem dedupSeen_sublist {α : Type} [DecidableEq α] :
    ∀ (l seen : List α), List.Sublist (dedupSeen seen l) l := by
  intro l
  induction l with
  | nil => intro seen; exact List.Sublist.refl _
  | cons a l ih =>
    intro seen
    simp only [dedupSeen]
    by_cases hc : seen.contains a = true
    · rw [if_pos hc]
      exact List.Sublist.cons a (ih seen)
    · rw [if_neg hc]
      exact List.Sublist.cons₂ a (ih (a :: seen))

theorem dedupSeen_mem {α : Type} [DecidableEq α] :
    ∀ (l seen : List α) (a : α), a ∈ dedupSeen seen l ↔ (a ∈ l ∧ a ∉ seen) := by
  intro l
  induction l with
  | nil => intro seen a; simp [dedupSeen]
  | cons b l ih =>
    intro seen a
    simp only [dedupSeen]
    by_cases hc : seen.contains b = true
    · rw [if_pos hc]
      rw [ih seen a]
      simp only [List.mem_cons]
      constructor
      · rintro ⟨h1, h2⟩; exact ⟨Or.inr h1, h2⟩
      · rintro ⟨h1 | h1, h2⟩
        · exact absurd ((contains_mem _ _).mp hc) (h1 ▸ h2)
        · exact ⟨h1, h2⟩
    · rw [if_neg hc]
      simp only [List.mem_cons, ih (b :: seen) a, List.mem_cons]
      constructor
      · rintro (rfl | ⟨h1, h2⟩)
        · refine ⟨Or.inl rfl, fun hs => hc ((contains_mem _ _).mpr hs)⟩
        · exact ⟨Or.inr h1, fun hs => h2 (Or.inr hs)⟩
      · rintro ⟨rfl | h1, h2⟩
        · exact Or.inl rfl
        · by_cases hab : a = b
          · exact Or.inl hab
          · exact Or.inr ⟨h1, fun hs => hs.elim hab h2⟩

theorem dedupSeen_nodup {α : Type} [DecidableEq α] :
    ∀ (l seen : List α), (dedupSeen seen l).Nodup := by
  intro l
  induction l with
  | nil => intro seen; exact List.nodup_nil
  | cons a l ih =>
    intro seen
    simp only [dedupSeen]
    by_cases hc : seen.contains a = true
    · rw [if_pos hc]; exact ih seen
    · rw [if_neg hc]
      refine List.nodup_cons.mpr ⟨fun hmem => ?_, ih (a :: seen)⟩
      exact ((dedupSeen_mem l (a :: seen) a).mp hmem).2 (List.mem_cons_self _ _)

theorem foldl_append_data (l : List String) : ∀ acc : String,
    (l.foldl (fun a b => a ++ b) acc).data = acc.data ++ (l.map String.data).flatten := by
  induction l with
  | nil => intro acc; simp
  | cons s t ih =>
    intro acc
    simp only [List.foldl_cons, ih, List.map_cons, List.flatten_cons, String.data_append,
      List.append_assoc]

theorem join_data (l : List String) : (String.join l).data = (l.map String.data).flatten := by
  have h := foldl_append_data l ""
  simpa [String.join] using h

theorem upper_not_digit (c : Char) (h : isUpperC c = true) : isDigitC c = false := by
  rw [← Bool.not_eq_true]
  intro hd
  simp only [isUpperC, Bool.and_eq_true, decide_eq_true_eq] at h
  simp only [isDigitC, Bool.and_eq_true, decide_eq_true_eq] at hd
  have hle : ('A' : Char) ≤ '9' := le_trans h.1 hd.2
  exact absurd hle (by decide)

theorem takeWhile_app {α : Type} (p : α → Bool) :
    ∀ (xs rest : List α), (∀ x ∈ xs, p x = true) →
      (∀ c, rest.head? = some c → p c = false) →
      (xs ++ rest).takeWhile p = xs ∧ (xs ++ rest).dropWhile p = rest := by
  intro xs
  induction xs with
  | nil =>
    intro rest _ hr
    cases rest with
    | nil => exact ⟨rfl, rfl⟩
    | cons c cs =>
      have hc := hr c rfl
      constructor
      · rw [List.nil_append, List.takeWhile_cons, hc]
        rfl
      · rw [List.nil_append, List.dropWhile_cons, hc]
        rfl
  | cons x xs ih =>
    intro rest hall hr
    have hx : p x = true := hall x (List.mem_cons_self _ _)
    have hrec := ih rest (fun y hy => hall y (List.mem_cons_of_mem _ hy)) hr
    constructor
    · rw [List.cons_append, List.takeWhile_cons, hx]
      simp only [if_true, hrec.1]
    · rw [List.cons_append, List.dropWhile_cons, hx]
      simp only [if_true, hrec.2]

theorem headNotDigit_head {rest : List Char} (h : headNotDigit rest) :
    ∀ c, rest.head? = some c → isDigitC c = false := by
  cases rest with
  | nil => intro c hc; exact absurd hc (by simp)
  | cons r rs => intro c hc; cases Option.some.inj hc; exact h

theorem matchAt_wf : ∀ {l : List Char} {pr : List Char × List Char},
    matchAt l = some pr → wfTok pr.1 := by
  intro l pr h
  match l with
  | [] => simp [matchAt] at h
  | c :: cs =>
    simp only [matchAt] at h
    by_cases hc : isUpperC c = true
    · rw [if_pos hc] at h
      by_cases hr : (cs.takeWhile isAlnumU).isEmpty = true
      · rw [if_pos hr] at h; exact absurd h (by simp)
      · rw [if_neg hr] at h
        match hrest : cs.dropWhile isAlnumU with
        | [] => rw [hrest] at h; exact absurd h (by simp)
        | d :: r2 =>
          rw [hrest] at h
          dsimp only at h
          by_cases hd : d = '-'
          · rw [if_pos hd] at h
            by_cases hds : (r2.takeWhile isDigitC).isEmpty = true
            · rw [if_pos hds] at h; exact absurd h (by simp)
            · rw [if_neg hds] at h
              cases Option.some.inj h
              dsimp only
              constructor
              · exact ⟨c, _, rfl, hc⟩
              · intro rest hrd
                have hall : ∀ x ∈ cs.takeWhile isAlnumU, isAlnumU x = true :=
                  fun x hx => List.mem_takeWhile_imp hx
                have htw := takeWhile_app isAlnumU (cs.takeWhile isAlnumU)
                  ('-' :: ((r2.takeWhile isDigitC) ++ rest)) hall
                  (by intro e he; cases Option.some.inj he; decide)
                have hall2 : ∀ x ∈ r2.takeWhile isDigitC, isDigitC x = true :=
                  fun x hx => List.mem_takeWhile_imp hx
                have htd := takeWhile_app isDigitC (r2.takeWhile isDigitC) rest hall2
                  (headNotDigit_head hrd)
                have hA : (cs.takeWhile isAlnumU ++ '-' :: r2.takeWhile isDigitC) ++ rest =
                    cs.takeWhile isAlnumU ++ '-' :: (r2.takeWhile isDigitC ++ rest) := by
                  simp [List.append_assoc]
                simp only [matchAt, List.cons_append]
                rw [if_pos hc, hA, htw.1, htw.2]
                have hr2 : (List.takeWhile isAlnumU cs).isEmpty = false := by
                  rw [← Bool.not_eq_true]
                  exact hr
                rw [hr2]
                simp only [Bool.false_eq_true, if_false]
                simp only [if_true]
                rw [htd.1, htd.2]
                have hds2 : (List.takeWhile isDigitC r2).isEmpty = false := by
                  rw [← Bool.not_eq_true]
                  exact hds
                rw [hds2]
                simp only [Bool.false_eq_true, if_false]
          · rw [if_neg hd] at h; exact absurd h (by simp)
    · rw [if_neg hc] at h; exact absurd h (by simp)

theorem scanTokensF_wf : ∀ (fuel : Nat) (l t : List Char),
    t ∈ scanTokensF fuel l → wfTok t := by
  intro fuel
  induction fuel with
  | zero => intro l t ht; simp [scanTokensF] at ht
  | succ n ih =>
    intro l t ht
    match l with
    | [] => simp [scanTokensF] at ht
    | c :: cs =>
      simp only [scanTokensF] at ht
      cases hm : matchAt (c :: cs) with
      | some pr =>
        rw [hm] at ht
        dsimp only at ht
        rcases List.mem_cons.mp ht with rfl | hmem
        · exact matchAt_wf hm
        · exact ih pr.2 t hmem
      | none =>
        rw [hm] at ht
        dsimp only at ht
        exact ih cs t ht

theorem scanTokens_wf (l t : List Char) (h : t ∈ scanTokens l) : wfTok t :=
  scanTokensF_wf l.length l t h

theorem headNotDigit_flatten : ∀ (ts : List (List Char)), (∀ t ∈ ts, wfTok t) →
    headNotDigit ts.flatten := by
  intro ts
  induction ts with
  | nil => intro _; trivial
  | cons t ts ih =>
    intro h
    obtain ⟨⟨c, t', heq, hc⟩, _⟩ := h t (List.mem_cons_self _ _)
    subst heq
    simp only [List.flatten_cons, List.cons_append]
    exact upper_not_digit c hc

theorem scanTokens_flatten : ∀ (ts : List (List Char)), (∀ t ∈ ts, wfTok t) →
    scanTokens ts.flatten = ts := by
  intro ts
  induction ts with
  | nil => intro _; rfl
  | cons t ts ih =>
    intro h
    obtain ⟨⟨c, t', heq, hc⟩, hext⟩ := h t (List.mem_cons_self _ _)
    have hwf' : ∀ u ∈ ts, wfTok u := fun u hu => h u (List.mem_cons_of_mem _ hu)
    have hmatch : matchAt (t ++ ts.flatten) = some (t, ts.flatten) :=
      hext ts.flatten (headNotDigit_flatten ts hwf')
    subst heq
    rw [List.flatten_cons]
    show scanTokensF ((c :: t') ++ ts.flatten).length ((c :: t') ++ ts.flatten) = _
    rw [List.cons_append] at hmatch ⊢
    simp only [List.length_cons]
    simp only [scanTokensF]
    rw [hmatch]
    dsimp only
    rw [scanTokensF_eq_scan _ _ (by simp [List.length_append])]
    rw [ih hwf']

/-- Claim C9: the issue-key extractor returns the matches of the key regex
deduplicated in order of first occurrence: no duplicates, a subsequence of
the raw match list containing exactly the matched substrings, and equal to
the keep-first deduplication `firstOccurDedup` of the raw match list, which
pins the output to first-occurrence order. It returns the empty list when
nothing matches, and is idempotent: re-extracting from the concatenation of
its own output reproduces the same list. -/
theorem contains_map_inj {α β : Type} [DecidableEq α] [DecidableEq β] (f : α → β)
    (hf : Function.Injective f) (l : List α) (a : α) :
    ((l.map f).contains (f a)) = (l.contains a) := by
  by_cases h : a ∈ l
  · rw [(contains_mem _ _).mpr h, (contains_mem _ _).mpr (List.mem_map_of_mem f h)]
  · have h2 : f a ∉ l.map f := by
      intro hm
      obtain ⟨b, hb, hfb⟩ := List.mem_map.mp hm
      exact h (hf hfb ▸ hb)
    have e1 : ((l.map f).contains (f a)) = false := by
      rw [← Bool.not_eq_true]
      intro hc
      exact h2 ((contains_mem _ _).mp hc)
    have e2 : (l.contains a) = false := by
      rw [← Bool.not_eq_true]
      intro hc
      exact h ((contains_mem _ _).mp hc)
    rw [e1, e2]

theorem dedupSeen_map_inj {α β : Type} [DecidableEq α] [DecidableEq β] (f : α → β)
    (hf : Function.Injective f) :
    ∀ (l seen : List α), (dedupSeen seen l).map f = dedupSeen (seen.map f) (l.map f) := by
  intro l
  induction l with
  | nil => intro seen; rfl
  | cons a l ih =>
    intro seen
    simp only [List.map_cons, dedupSeen]
    rw [contains_map_inj f hf seen a]
    by_cases hc : seen.contains a = true
    · rw [if_pos hc, if_pos hc]
      exact ih seen
    · rw [if_neg hc, if_neg hc]
      simp only [List.map_cons]
      rw [ih (a :: seen)]
      rfl

theorem foldl_keepFirst_eq_dedupSeen {α : Type} [DecidableEq α] :
    ∀ (l acc : List α),
      l.foldl (fun acc x => if x ∈ acc then acc else acc ++ [x]) acc =
        acc ++ dedupSeen acc l := by
  intro l
  induction l with
  | nil => intro acc; rw [List.foldl_nil, dedupSeen, List.append_nil]
  | cons x l ih =>
    intro acc
    rw [List.foldl_cons]
    by_cases hx : x ∈ acc
    · rw [if_pos hx, ih acc, dedupSeen, (contains_mem _ _).mpr hx, if_pos rfl]
    · have hc : acc.contains x = false := by
        rw [← Bool.not_eq_true]
        intro h
        exact hx ((contains_mem _ _).mp h)
      rw [if_neg hx, ih (acc ++ [x]), dedupSeen, hc]
      simp only [Bool.false_eq_true, if_false]
      rw [dedupSeen_congr (acc ++ [x]) (x :: acc)
        (fun y => by simp [List.mem_append, List.mem_cons, or_comm]) l]
      rw [List.append_assoc, List.singleton_append]

theorem dedupFirstL_eq_firstOccur {α : Type} [DecidableEq α] (l : List α) :
    dedupFirstL l = firstOccurDedup l := by
  have h := foldl_keepFirst_eq_dedupSeen l []
  rw [List.nil_append] at h
  exact h.symm

theorem c9_extractor_contract (s : String) :
    (extractIssueKeys s).Nodup ∧
    List.Sublist (extractIssueKeys s) ((scanTokens s.data).map String.mk) ∧
    (∀ t, t ∈ extractIssueKeys s ↔ t ∈ (scanTokens s.data).map String.mk) ∧
    (scanTokens s.data = [] → extractIssueKeys s = []) ∧
    extractIssueKeys (String.join (extractIssueKeys s)) = extractIssueKeys s ∧
    extractIssueKeys s = firstOccurDedup ((scanTokens s.data).map String.mk) := by
  have hinj : Function.Injective String.mk := fun a b hab => by injection hab
  have hnd : (dedupFirstL (scanTokens s.data)).Nodup := dedupSeen_nodup _ []
  refine ⟨?_, ?_, ?_, ?_, ?_, ?_⟩
  · exact hnd.map hinj
  · exact List.Sublist.map String.mk (dedupSeen_sublist _ [])
  · intro t
    simp only [extractIssueKeys, dedupFirstL, List.mem_map]
    constructor
    · rintro ⟨a, ha, rfl⟩
      exact ⟨a, ((dedupSeen_mem _ _ _).mp ha).1, rfl⟩
    · rintro ⟨a, ha, rfl⟩
      exact ⟨a, (dedupSeen_mem _ [] a).mpr ⟨ha, by simp⟩, rfl⟩
  · intro h
    simp [extractIssueKeys, h, dedupFirstL, dedupSeen]
  · have hts : ∀ u ∈ dedupFirstL (scanTokens s.data), wfTok u := fun u hu =>
      scanTokens_wf s.data u ((dedupSeen_mem _ [] u).mp hu).1
    have hdata : (String.join ((dedupFirstL (scanTokens s.data)).map String.mk)).data
        = (dedupFirstL (scanTokens s.data)).flatten := by
      rw [join_data, List.map_map]
      have hcomp : (String.data ∘ String.mk) = fun a : List Char => a := rfl
      rw [hcomp]
      simp
    simp only [extractIssueKeys]
    rw [hdata]
    rw [scanTokens_flatten _ hts]
    rw [dedupFirstL_of_nodup _ hnd]
  · simp only [extractIssueKeys, dedupFirstL]
    rw [dedupSeen_map_inj String.mk hinj]
    exact dedupFirstL_eq_firstOccur _

/-- The C9 contract instantiated: a text with a repeated key extracts it
once, a keyless text extracts nothing, re-extraction is stable, and a text
with interleaved duplicate keys extracts them keeping the first
occurrence's position. -/
theorem c9_witness :
    (extractIssueKeys "see ABC-123 and ABC-123 again").Nodup ∧
    extractIssueKeys "hello" = [] ∧
    extractIssueKeys (String.join (extractIssueKeys "see ABC-123 and ABC-123 again")) =
      extractIssueKeys "see ABC-123 and ABC-123 again" ∧
    extractIssueKeys "AB-1 CD-2 AB-1" =
      firstOccurDedup ((scanTokens ("AB-1 CD-2 AB-1" : String).data).map String.mk) :=
  ⟨(c9_extractor_contract "see ABC-123 and ABC-123 again").1,
   (c9_extractor_contract "hello").2.2.2.1 (by decide),
   (c9_extractor_contract "see ABC-123 and ABC-123 again").2.2.2.2.1,
   (c9_extractor_contract "AB-1 CD-2 AB-1").2.2.2.2.2⟩
